import Mathlib

/-!
Shallow embedding of the wordle-helper engine (src/main.rs) and proofs about
its clue extraction, clue merging, corpus filtering and ranking operations.

Words are represented as `List Char`.  Rust `Vec` becomes `List`, fallible
functions return `Except String`, and the regular expressions built by
`filter` are modelled by their matching semantics (see the doc comments on
`patternIsMatch`, `repeatMatchExact` and `repeatMatchAtLeast`).
-/

namespace WordleHelper

/-- Embeds `enum WordCluePattern` (main.rs:18-22): a per-position constraint,
either a fixed letter or a set of excluded letters. -/
inductive WordCluePattern where
  | Letter (c : Char)
  | Exclude (v : List Char)
deriving DecidableEq

/-- Embeds `struct WordClueLetter` (main.rs:24-29): a per-letter count
constraint. -/
structure WordClueLetter where
  letter : Char
  count : Nat
  exact : Bool
deriving DecidableEq

/-- Embeds `struct WordClue` (main.rs:31-35). -/
structure WordClue where
  pattern : List WordCluePattern
  letters : List WordClueLetter
deriving DecidableEq

/-- Embeds `enum LetterAnswerType` (main.rs:82-86). -/
inductive LetterAnswerType where
  | Correct
  | Incorrect
  | NotInWord
deriving DecidableEq

/-- Embeds `struct LetterAnswer` (main.rs:88-91). -/
structure LetterAnswer where
  letter : Char
  answer : LetterAnswerType
deriving DecidableEq

/-- Embeds `type WordAnswer = Vec<LetterAnswer>` (main.rs:93). -/
abbrev WordAnswer := List LetterAnswer

/-! ### List helpers embedding the itertools operations used by the source

`itertools::sorted`/`sorted_by_key` are stable ascending sorts; they are
embedded as `List.insertionSort`, which performs exactly the stable
insertion-before-the-first-not-smaller-element discipline. -/

/-- Embeds `itertools::dedup`: remove consecutive duplicate elements. -/
def dedupAdj {α : Type} [DecidableEq α] : List α → List α
  | [] => []
  | [x] => [x]
  | x :: y :: xs => if x = y then dedupAdj (y :: xs) else x :: dedupAdj (y :: xs)

/-- Embeds the `.sorted().dedup()` chains of main.rs:67 and main.rs:137
(`char` ordering is code-point order, as in Rust). -/
def canonChars (l : List Char) : List Char :=
  dedupAdj (List.insertionSort (fun a b => a ≤ b) l)

/-! ### Clue merging -/

/-- Embeds `merge_letter_clue` (main.rs:37-47): update the first entry with
the same letter to the pointwise max/or combination, or push the new entry at
the end. -/
def merge_letter_clue : List WordClueLetter → WordClueLetter → List WordClueLetter
  | [], clue => [clue]
  | w :: ws, clue =>
    if w.letter = clue.letter then
      ⟨w.letter, Nat.max w.count clue.count, w.exact || clue.exact⟩ :: ws
    else
      w :: merge_letter_clue ws clue

/-- Embeds the per-position match of `merge` (main.rs:56-69). -/
def combinePos : WordCluePattern → WordCluePattern → Except String WordCluePattern
  | .Letter a, .Letter b =>
    if a = b then .ok (.Letter a)
    else .error ("Conflict: " ++ String.singleton a ++ " != " ++ String.singleton b)
  | .Letter a, _ => .ok (.Letter a)
  | _, .Letter b => .ok (.Letter b)
  | .Exclude a, .Exclude b => .ok (.Exclude (canonChars (a ++ b)))

/-- Embeds `zip(..).map(..).collect::<Result<Vec<_>,_>>()` of main.rs:55-70:
combine positions pairwise (zip truncates), stopping at the first error. -/
def zipCombine : List WordCluePattern → List WordCluePattern → Except String (List WordCluePattern)
  | [], _ => .ok []
  | _ :: _, [] => .ok []
  | a :: as, b :: bs =>
    match combinePos a b with
    | .error e => .error e
    | .ok p =>
      match zipCombine as bs with
      | .error e => .error e
      | .ok ps => .ok (p :: ps)

/-- Embeds `merge` (main.rs:49-80). -/
def merge (a b : WordClue) : Except String WordClue :=
  if a.pattern.length ≠ b.pattern.length then
    .error ("Pattern length mismatch: " ++ toString a.pattern.length ++ " != "
      ++ toString b.pattern.length)
  else
    match zipCombine a.pattern b.pattern with
    | .error e => .error e
    | .ok pat => .ok ⟨pat, b.letters.foldl merge_letter_clue a.letters⟩

/-! ### Clue extraction -/

/-- Embeds the find-or-insert count bump of main.rs:104-107 and 111-114:
increment the count of the first entry with this letter, or push a fresh
`{count: 1, exact: false}` entry at the end. -/
def incrCount : List WordClueLetter → Char → List WordClueLetter
  | [], l => [⟨l, 1, false⟩]
  | w :: ws, l =>
    if w.letter = l then ⟨w.letter, w.count + 1, w.exact⟩ :: ws
    else w :: incrCount ws l

/-- The mutable state of the first loop of `extract_clue` (main.rs:96-121). -/
structure ExtractState where
  pattern : List WordCluePattern
  letter_clues : List WordClueLetter
  exclude : List Char
deriving DecidableEq

/-- Embeds one iteration of the first loop of `extract_clue`
(main.rs:100-121). -/
def extractStep (st : ExtractState) (la : LetterAnswer) : ExtractState :=
  match la.answer with
  | .Correct =>
    { st with pattern := st.pattern ++ [.Letter la.letter],
              letter_clues := incrCount st.letter_clues la.letter }
  | .Incorrect =>
    { st with pattern := st.pattern ++ [.Exclude [la.letter]],
              letter_clues := incrCount st.letter_clues la.letter }
  | .NotInWord =>
    { st with pattern := st.pattern ++ [.Exclude [la.letter]],
              exclude := st.exclude ++ [la.letter] }

/-- Embeds `letter_clues[idx].exact = true` on the first entry with letter `e`
(main.rs:126-127); `none` when no entry has that letter. -/
def markExact : List WordClueLetter → Char → Option (List WordClueLetter)
  | [], _ => none
  | w :: ws, e =>
    if w.letter = e then some (⟨w.letter, w.count, true⟩ :: ws)
    else (markExact ws e).map (w :: ·)

/-- Embeds the resolution loop of `extract_clue` (main.rs:123-132): for each
pending absent letter, either mark its count entry exact or keep it in the
global exclusion list. -/
def resolveExclude (clues : List WordClueLetter) (result : List Char) :
    List Char → List WordClueLetter × List Char
  | [] => (clues, result)
  | e :: es =>
    match markExact clues e with
    | some clues2 => resolveExclude clues2 result es
    | none => resolveExclude clues (result ++ [e]) es

/-- Embeds the final pattern rewrite of `extract_clue` (main.rs:135-140). -/
def finalizePattern (exclude : List Char) : WordCluePattern → WordCluePattern
  | .Exclude v => .Exclude (canonChars (v ++ exclude))
  | p => p

/-- Embeds `extract_clue` (main.rs:95-144). -/
def extract_clue (word : WordAnswer) : WordClue :=
  let st := word.foldl extractStep ⟨[], [], []⟩
  let resolved := resolveExclude st.letter_clues [] st.exclude
  ⟨st.pattern.map (finalizePattern resolved.2), resolved.1⟩

/-! ### Guess token parsing -/

/-- One letter of the token grammar `[A-Za-zçÇ]` (main.rs:147-148). -/
def isTokenLetter (c : Char) : Bool :=
  (decide ('A' ≤ c) && decide (c ≤ 'Z')) || (decide ('a' ≤ c) && decide (c ≤ 'z'))
    || c == 'ç' || c == 'Ç'

/-- One digit of the token grammar `[0-2]` (main.rs:147-148). -/
def isTokenDigit (c : Char) : Bool := c == '0' || c == '1' || c == '2'

/-- Embeds the `^([A-Za-zçÇ][0-2])+$` full-token check of main.rs:148-151,
minus the non-emptiness of `+` (checked in `extract_answer`). -/
def checkPairs : List Char → Bool
  | [] => true
  | l :: d :: rest => isTokenLetter l && isTokenDigit d && checkPairs rest
  | [_] => false

/-- Embeds `letter.to_uppercase().chars().next().unwrap()` (main.rs:155) on
the token alphabet. -/
def upperChar (c : Char) : Char := if c == 'ç' then 'Ç' else c.toUpper

/-- Embeds the digit-to-verdict match of main.rs:156-161. -/
def digitAnswer (d : Char) : Except String LetterAnswerType :=
  if d == '0' then .ok .NotInWord
  else if d == '1' then .ok .Incorrect
  else if d == '2' then .ok .Correct
  else .error ("Invalid answer value: " ++ String.singleton d)

/-- Embeds the `captures_iter(..).map(..).collect` of main.rs:153-163: decode
each (letter, digit) pair, stopping at the first error. -/
def parsePairs : List Char → Except String WordAnswer
  | [] => .ok []
  | l :: d :: rest => do
    let a ← digitAnswer d
    let rest2 ← parsePairs rest
    .ok (⟨upperChar l, a⟩ :: rest2)
  | [_] => .ok []

/-- Embeds `extract_answer` (main.rs:146-164). -/
def extract_answer (token : List Char) : Except String WordAnswer :=
  if token.isEmpty || !checkPairs token then
    .error ("Invalid token: " ++ String.mk token)
  else parsePairs token

/-! ### Corpus filtering

`filter` (main.rs:166-188) compiles the clue to regular expressions and keeps
the words on which `Regex::is_match` (an *unanchored* substring search)
succeeds.  The three regex shapes the code builds are modelled by their
matching semantics:

* the positional regex is a concatenation of single-character atoms (a
  literal letter for `Letter(l)`, a negated character class `[^v]` for
  `Exclude(v)`); an unanchored match succeeds iff the atoms match some
  contiguous substring (`patternIsMatch`);
* `([^l]*l){c}` (the `exact: true` count regex, main.rs:177) matches at some
  start position iff, from that position, `c` groups each consisting of
  non-`l` characters followed by `l` can be consumed (`repeatMatchExact`);
* `([^l]*l){c,}` (the `exact: false` count regex, main.rs:180) is the same
  with `c` or more groups (`repeatMatchAtLeast`). -/

/-- Whether one character satisfies one positional regex atom. -/
def atomSat : WordCluePattern → Char → Bool
  | .Letter l, c => c == l
  | .Exclude v, c => !(v.contains c)

/-- Whether the positional atoms match a prefix of `w`, one character each. -/
def seqMatchAt : List WordCluePattern → List Char → Bool
  | [], _ => true
  | _ :: _, [] => false
  | p :: ps, c :: cs => atomSat p c && seqMatchAt ps cs

/-- Unanchored `is_match` of the positional regex of main.rs:168-173. -/
def patternIsMatch (ps : List WordCluePattern) (w : List Char) : Bool :=
  (List.range (w.length + 1)).any (fun s => seqMatchAt ps (w.drop s))

/-- Consume `c` repetitions of the group `[^l]*l` from the front of `w`:
each repetition consumes the characters up to and including the next `l`. -/
def consumeGroups (l : Char) : Nat → List Char → Option (List Char)
  | 0, w => some w
  | c + 1, w =>
    match w.dropWhile (fun x => x != l) with
    | [] => none
    | _ :: rest => consumeGroups l c rest

/-- Unanchored `is_match` of `([^l]*l){c}` (main.rs:177). -/
def repeatMatchExact (l : Char) (c : Nat) (w : List Char) : Bool :=
  (List.range (w.length + 1)).any (fun s => (consumeGroups l c (w.drop s)).isSome)

/-- Unanchored `is_match` of `([^l]*l){c,}` (main.rs:180). -/
def repeatMatchAtLeast (l : Char) (c : Nat) (w : List Char) : Bool :=
  (List.range (w.length + 1)).any (fun s =>
    (List.range (w.length + 1)).any (fun k => (consumeGroups l (c + k) (w.drop s)).isSome))

/-- Whether a word satisfies one letter-count constraint (main.rs:175-182). -/
def letterSat (w : List Char) (cl : WordClueLetter) : Bool :=
  if cl.exact then repeatMatchExact cl.letter cl.count w
  else repeatMatchAtLeast cl.letter cl.count w

/-- Embeds `filter` (main.rs:166-188). -/
def filterWords (clue : WordClue) (words : List (List Char)) : List (List Char) :=
  words.filter (fun w => patternIsMatch clue.pattern w && clue.letters.all (letterSat w))

/-! ### Frequency scoring and ranking -/

/-- Helper of `runLengths`: run-length encoding with the current run open. -/
def runLengthsAux {α : Type} [DecidableEq α] (x : α) (n : Nat) : List α → List (α × Nat)
  | [] => [(x, n)]
  | y :: ys => if x = y then runLengthsAux x (n + 1) ys else (x, n) :: runLengthsAux y 1 ys

/-- Run-length encoding of consecutive equal elements, embedding the
`group_by(..).map(count)` of main.rs:213. -/
def runLengths {α : Type} [DecidableEq α] : List α → List (α × Nat)
  | [] => []
  | x :: xs => runLengthsAux x 1 xs

/-- Embeds `get_frequency` (main.rs:212-214). -/
def get_frequency (word : List Char) : List (Char × Nat) :=
  runLengths (List.insertionSort (fun a b => a ≤ b) word)

/-- Embeds `score` (main.rs:216-224). -/
def score (expected frequency : List (Char × Nat)) : Nat :=
  expected.foldl (fun acc cf =>
    match frequency.find? (fun lf => lf.1 = cf.1) with
    | some lf => acc + Nat.min lf.2 cf.2
    | none => acc) 0

/-- Embeds `weighted_score` (main.rs:226-234). -/
def weighted_score (expected frequency : List (Char × Nat)) : Nat :=
  expected.foldl (fun acc cf =>
    if frequency.any (fun lf => lf.1 = cf.1) then acc + cf.2 else acc) 0

/-- Embeds `group_by(|(_, s)| *s).into_iter().next()` (main.rs:246-247,
263-264): the first maximal run of equal scores, or `none` on the empty
list. -/
def firstGroupByScore (l : List (List Char × Nat)) : Option (List (List Char × Nat)) :=
  match l with
  | [] => none
  | x :: xs => some (x :: xs.takeWhile (fun y => y.2 == x.2))

/-- Embeds the shared ranking pipeline of `api_most_letters` and
`api_most_common` (main.rs:244-248, 261-265): score every word, sort
ascending by score (stably), reverse, take the first equal-score group, and
fall back to the `[""]` sentinel when there is no group. -/
def rankWords (scoreFn : List Char → Nat) (ws : List (List Char)) : List (List Char) :=
  match firstGroupByScore
      ((List.insertionSort (fun x y => x.2 ≤ y.2)
        (ws.map (fun a => (a, scoreFn a)))).reverse) with
  | none => [[]]
  | some grp => grp.map (·.1)

/-- Embeds `get_words` (main.rs:12-16). -/
def get_words {T : Type} (corpus : List (Nat × T)) (n : Nat) : Option T :=
  (corpus.find? (fun p => p.1 == n)).map (·.2)

/-- Embeds the corpus lookup and filtering of `api_words` (main.rs:206-209):
an absent bucket yields the empty list. -/
def api_words_core (corpus : List (Nat × List (List Char))) (clue : WordClue) :
    List (List Char) :=
  match get_words corpus clue.pattern.length with
  | none => []
  | some words => filterWords clue words

/-- The overlap-score ranking of one bucket (main.rs:244-248). -/
def api_most_letters_core (patternChars : List Char) (ws : List (List Char)) :
    List (List Char) :=
  rankWords (fun a => score (get_frequency patternChars) (get_frequency a)) ws

/-- Embeds `api_most_letters` (main.rs:238-252) after path decoding: an
absent bucket yields the `[""]` sentinel. -/
def api_most_letters_route (corpus : List (Nat × List (List Char))) (n : Nat)
    (patternChars : List Char) : List (List Char) :=
  match get_words corpus n with
  | none => [[]]
  | some ws => api_most_letters_core patternChars ws

/-- The presence-weighted ranking of one bucket (main.rs:261-265). -/
def api_most_common_core (mc : List (Char × Nat)) (ws : List (List Char)) :
    List (List Char) :=
  rankWords (fun a => weighted_score mc (get_frequency a)) ws

/-- Embeds `api_most_common` (main.rs:255-269): `zip` over the two optional
buckets yields a result only when both are present, else the `[""]`
sentinel. -/
def api_most_common_route (corpus : List (Nat × List (List Char)))
    (most_common : List (Nat × List (Char × Nat))) (n : Nat) : List (List Char) :=
  match get_words corpus n, get_words most_common n with
  | some ws, some mc => api_most_common_core mc ws
  | _, _ => [[]]

/-! ### Specification helpers

Derived notions used to state and prove properties of the embedded code:
association-list reads of the letters map, verdict counts of a guess, and the
well-formedness predicates of the data model. -/

/-- The first count entry for letter `c` (the `find`s of main.rs:38, 104,
111, 126). -/
def findLetter (c : Char) (l : List WordClueLetter) : Option WordClueLetter :=
  l.find? (fun w => w.letter == c)

/-- The keys of a letters list, in order. -/
def lettersKeys (l : List WordClueLetter) : List Char := l.map (·.letter)

/-- The data-model invariant on the `letters` component: one entry per
distinct letter. -/
def LettersWf (l : List WordClueLetter) : Prop := (lettersKeys l).Nodup

/-- Per-key combine of two entries (count max, exact or), keeping the first
entry's letter. -/
def combineEntry : Option WordClueLetter → WordClueLetter → WordClueLetter
  | some w, clue => ⟨w.letter, Nat.max w.count clue.count, w.exact || clue.exact⟩
  | none, clue => clue

/-- Per-key combine of two optional entries. -/
def combineOpt : Option WordClueLetter → Option WordClueLetter → Option WordClueLetter
  | a, some y => some (combineEntry a y)
  | a, none => a

/-- Whether a letter answer marks letter `c` Correct or Incorrect. -/
def isCI (c : Char) (la : LetterAnswer) : Bool :=
  la.letter == c && (la.answer == LetterAnswerType.Correct
    || la.answer == LetterAnswerType.Incorrect)

/-- Whether a letter answer marks letter `c` NotInWord. -/
def isNI (c : Char) (la : LetterAnswer) : Bool :=
  la.letter == c && la.answer == LetterAnswerType.NotInWord

/-- Number of Correct/Incorrect verdicts for letter `c` in a guess. -/
def ciCount (c : Char) (w : WordAnswer) : Nat := w.countP (isCI c)

/-- Number of NotInWord verdicts for letter `c` in a guess. -/
def niCount (c : Char) (w : WordAnswer) : Nat := w.countP (isNI c)

/-- Effect on a find result of `k` find-or-insert count bumps for `c`. -/
def addCI (c : Char) (o : Option WordClueLetter) (k : Nat) : Option WordClueLetter :=
  if k = 0 then o
  else
    match o with
    | some w => some ⟨w.letter, w.count + k, w.exact⟩
    | none => some ⟨c, k, false⟩

/-- The letters a guess marks NotInWord, in order (the value accumulated in
`exclude` by the first loop of `extract_clue`). -/
def notInWordLetters (w : WordAnswer) : List Char :=
  w.filterMap
    (fun la => if la.answer = LetterAnswerType.NotInWord then some la.letter else none)

/-- The invariant every reachable position constraint satisfies: a fixed
letter, or a non-empty strictly increasing (hence sorted and duplicate-free)
exclusion list. -/
def PatInv : WordCluePattern → Prop
  | .Letter _ => True
  | .Exclude v => v ≠ [] ∧ v.Pairwise (· < ·)

/-- The maximum score over a list of words (0 for the empty list). -/
def maxScore (scoreFn : List Char → Nat) (ws : List (List Char)) : Nat :=
  (ws.map scoreFn).foldr Nat.max 0

/-- Embeds the merge fold of `api_words` (main.rs:199-203): starting from one
clue, merge in the remaining clues left to right, propagating the first
error. -/
def foldMergeClues (z : WordClue) : List WordClue → Except String WordClue
  | [] => .ok z
  | c :: cs =>
    match merge z c with
    | .error e => .error e
    | .ok m => foldMergeClues m cs

/-- Equality of clues up to the map semantics of `letters`: equal patterns
and equal find results for every letter. -/
def ClueEquiv (a b : WordClue) : Prop :=
  a.pattern = b.pattern ∧ ∀ c, findLetter c a.letters = findLetter c b.letters

instance : IsTotal (List Char × Nat) (fun x y => x.2 ≤ y.2) :=
  ⟨fun a b => Nat.le_total a.2 b.2⟩

instance : IsTrans (List Char × Nat) (fun x y => x.2 ≤ y.2) :=
  ⟨fun _ _ _ h1 h2 => Nat.le_trans h1 h2⟩

/-! ## Lemmas: canonical character lists -/

theorem mem_dedupAdj {α : Type} [DecidableEq α] (a : α) :
    ∀ l : List α, a ∈ dedupAdj l ↔ a ∈ l
  | [] => Iff.rfl
  | [_] => Iff.rfl
  | x :: y :: xs => by
    by_cases h : x = y
    · rw [dedupAdj, if_pos h, mem_dedupAdj a (y :: xs), h]
      simp
    · rw [dedupAdj, if_neg h]
      simp [mem_dedupAdj a (y :: xs)]

theorem dedupAdj_pairwise_lt {α : Type} [DecidableEq α] [LinearOrder α] :
    ∀ l : List α, l.Pairwise (· ≤ ·) → (dedupAdj l).Pairwise (· < ·)
  | [], _ => List.Pairwise.nil
  | [x], _ => List.pairwise_singleton _ x
  | x :: y :: xs, h => by
    rcases List.pairwise_cons.1 h with ⟨hx, h2⟩
    by_cases hxy : x = y
    · rw [dedupAdj, if_pos hxy]
      exact dedupAdj_pairwise_lt (y :: xs) h2
    · rw [dedupAdj, if_neg hxy]
      refine List.Pairwise.cons ?_ (dedupAdj_pairwise_lt (y :: xs) h2)
      intro b hb
      rw [mem_dedupAdj] at hb
      have hxlty : x < y := lt_of_le_of_ne (hx y (List.mem_cons_self y xs)) hxy
      rcases List.mem_cons.1 hb with rfl | hb
      · exact hxlty
      · exact lt_of_lt_of_le hxlty (List.rel_of_pairwise_cons h2 hb)

theorem eq_of_pairwise_lt {α : Type} [LinearOrder α] :
    ∀ l₁ l₂ : List α, l₁.Pairwise (· < ·) → l₂.Pairwise (· < ·) →
      (∀ a, a ∈ l₁ ↔ a ∈ l₂) → l₁ = l₂
  | [], [], _, _, _ => rfl
  | [], y :: ys, _, _, hm => absurd ((hm y).2 (List.mem_cons_self y ys)) (List.not_mem_nil y)
  | x :: xs, [], _, _, hm => absurd ((hm x).1 (List.mem_cons_self x xs)) (List.not_mem_nil x)
  | x :: xs, y :: ys, h1, h2, hm => by
    rcases List.pairwise_cons.1 h1 with ⟨hx, h1t⟩
    rcases List.pairwise_cons.1 h2 with ⟨hy, h2t⟩
    have hxy : x = y := by
      rcases List.mem_cons.1 ((hm x).1 (List.mem_cons_self x xs)) with h | h
      · exact h
      · rcases List.mem_cons.1 ((hm y).2 (List.mem_cons_self y ys)) with h' | h'
        · exact h'.symm
        · exact absurd (lt_trans (hx y h') (hy x h)) (lt_irrefl x)
    subst hxy
    have hmt : ∀ a, a ∈ xs ↔ a ∈ ys := by
      intro a
      constructor
      · intro ha
        rcases List.mem_cons.1 ((hm a).1 (List.mem_cons (b := x)|>.2 (Or.inr ha))) with h | h
        · exact absurd (h ▸ hx a ha) (lt_irrefl a)
        · exact h
      · intro ha
        rcases List.mem_cons.1 ((hm a).2 (List.mem_cons (b := x)|>.2 (Or.inr ha))) with h | h
        · exact absurd (h ▸ hy a ha) (lt_irrefl a)
        · exact h
    rw [eq_of_pairwise_lt xs ys h1t h2t hmt]

theorem mem_canonChars {a : Char} {l : List Char} : a ∈ canonChars l ↔ a ∈ l := by
  rw [canonChars, mem_dedupAdj, List.mem_insertionSort]

theorem canonChars_pairwise_lt (l : List Char) : (canonChars l).Pairwise (· < ·) := by
  unfold canonChars
  exact @dedupAdj_pairwise_lt Char instDecidableEqChar _ _
    (List.sorted_insertionSort _ l)

theorem canonChars_eq_of_mem {l₁ l₂ : List Char} (h : ∀ a, a ∈ l₁ ↔ a ∈ l₂) :
    canonChars l₁ = canonChars l₂ :=
  eq_of_pairwise_lt _ _ (canonChars_pairwise_lt l₁) (canonChars_pairwise_lt l₂)
    (fun a => by rw [mem_canonChars, mem_canonChars]; exact h a)

theorem canonChars_ne_nil {l : List Char} (h : l ≠ []) : canonChars l ≠ [] := by
  rcases List.exists_mem_of_ne_nil l h with ⟨a, ha⟩
  intro hc
  exact absurd (mem_canonChars.2 ha) (hc ▸ List.not_mem_nil a)

/-! ## Lemmas: semantics of the count regexes -/

theorem count_dropWhile_ne (l : Char) :
    ∀ w : List Char, (w.dropWhile (fun x => x != l)).count l = w.count l
  | [] => rfl
  | x :: xs => by
    by_cases h : x = l
    · subst h
      rw [List.dropWhile_cons]
      simp
    · rw [List.dropWhile_cons]
      have hb : (x != l) = true := bne_iff_ne.2 h
      rw [if_pos hb, count_dropWhile_ne l xs, List.count_cons]
      simp [h]

theorem dropWhile_ne_head {l : Char} {w : List Char} {y : Char} {ys : List Char}
    (h : w.dropWhile (fun x => x != l) = y :: ys) : y = l := by
  induction w with
  | nil => exact absurd h (by simp)
  | cons x xs ih =>
    rw [List.dropWhile_cons] at h
    by_cases hx : (x != l) = true
    · rw [if_pos hx] at h
      exact ih h
    · rw [if_neg hx] at h
      cases h
      simpa [bne] using hx

theorem consumeGroups_isSome (l : Char) :
    ∀ (c : Nat) (w : List Char), (consumeGroups l c w).isSome = true ↔ c ≤ w.count l
  | 0, w => by simp [consumeGroups]
  | c + 1, w => by
    rw [consumeGroups]
    rcases hdw : w.dropWhile (fun x => x != l) with _ | ⟨y, ys⟩
    · have h0 : w.count l = 0 := by
        rw [← count_dropWhile_ne l w, hdw, List.count_nil]
      simp [h0]
    · have hy : y = l := dropWhile_ne_head hdw
      have hcnt : w.count l = ys.count l + 1 := by
        rw [← count_dropWhile_ne l w, hdw, List.count_cons, hy]
        simp
      simp only [consumeGroups_isSome l c ys, hcnt]
      omega

theorem repeatMatchExact_iff (l : Char) (c : Nat) (w : List Char) :
    repeatMatchExact l c w = true ↔ c ≤ w.count l := by
  rw [repeatMatchExact, List.any_eq_true]
  constructor
  · rintro ⟨s, _, hs⟩
    calc c ≤ (w.drop s).count l := (consumeGroups_isSome l c (w.drop s)).1 hs
    _ ≤ w.count l := (List.drop_sublist s w).count_le l
  · intro h
    refine ⟨0, List.mem_range.2 (Nat.succ_pos _), ?_⟩
    rw [List.drop_zero]
    exact (consumeGroups_isSome l c w).2 h

theorem repeatMatchAtLeast_iff (l : Char) (c : Nat) (w : List Char) :
    repeatMatchAtLeast l c w = true ↔ c ≤ w.count l := by
  rw [repeatMatchAtLeast, List.any_eq_true]
  constructor
  · rintro ⟨s, _, hs⟩
    rcases List.any_eq_true.1 hs with ⟨k, _, hk⟩
    have h1 : c + k ≤ (w.drop s).count l := (consumeGroups_isSome l (c + k) (w.drop s)).1 hk
    have h2 : (w.drop s).count l ≤ w.count l := (List.drop_sublist s w).count_le l
    omega
  · intro h
    refine ⟨0, List.mem_range.2 (Nat.succ_pos _), List.any_eq_true.2
      ⟨0, List.mem_range.2 (Nat.succ_pos _), ?_⟩⟩
    rw [List.drop_zero]
    exact (consumeGroups_isSome l (c + 0) w).2 (by omega)

/-- Both count regexes of `filter` accept exactly the words with at least
`count` occurrences: the `exact` flag has no effect on matching, because the
regexes are unanchored. -/
theorem letterSat_iff (w : List Char) (cl : WordClueLetter) :
    letterSat w cl = true ↔ cl.count ≤ w.count cl.letter := by
  rw [letterSat]
  by_cases h : cl.exact
  · rw [if_pos h, repeatMatchExact_iff]
  · rw [if_neg h, repeatMatchAtLeast_iff]

theorem mem_filterWords {clue : WordClue} {ws : List (List Char)} {v : List Char} :
    v ∈ filterWords clue ws ↔
      v ∈ ws ∧ patternIsMatch clue.pattern v = true ∧
        ∀ cl ∈ clue.letters, cl.count ≤ v.count cl.letter := by
  rw [filterWords, List.mem_filter, Bool.and_eq_true, List.all_eq_true]
  constructor
  · rintro ⟨hv, hp, hl⟩
    exact ⟨hv, hp, fun cl hcl => (letterSat_iff v cl).1 (hl cl hcl)⟩
  · rintro ⟨hv, hp, hl⟩
    exact ⟨hv, hp, fun cl hcl => (letterSat_iff v cl).2 (hl cl hcl)⟩

/-! ## Lemmas: the letters map

`letters` is an association list keyed by `letter`; the source always reads
it through "find the first entry with this letter", so the map semantics of a
letters list is its `findLetter` function. -/

theorem findLetter_cons {c : Char} {w : WordClueLetter} {ws : List WordClueLetter} :
    findLetter c (w :: ws) = if w.letter = c then some w else findLetter c ws := by
  rw [findLetter, List.find?_cons]
  by_cases h : w.letter = c
  · simp [h]
  · have hb : (w.letter == c) = false := beq_eq_false_iff_ne.2 h
    simp [hb, h, findLetter]

theorem findLetter_some {c : Char} {w : WordClueLetter} {l : List WordClueLetter}
    (h : findLetter c l = some w) : w.letter = c ∧ w ∈ l :=
  ⟨by simpa using List.find?_some h, List.mem_of_find?_eq_some h⟩

theorem findLetter_eq_none {c : Char} {l : List WordClueLetter} :
    findLetter c l = none ↔ c ∉ lettersKeys l := by
  rw [findLetter, List.find?_eq_none, lettersKeys]
  simp

theorem findLetter_merge_letter_clue_self (b : WordClueLetter) :
    ∀ A : List WordClueLetter,
      findLetter b.letter (merge_letter_clue A b) =
        some (combineEntry (findLetter b.letter A) b)
  | [] => by simp [merge_letter_clue, findLetter, combineEntry]
  | w :: ws => by
    by_cases h : w.letter = b.letter
    · rw [merge_letter_clue, if_pos h, findLetter_cons, findLetter_cons, if_pos h, if_pos h]
      rfl
    · rw [merge_letter_clue, if_neg h, findLetter_cons, if_neg h, findLetter_cons, if_neg h]
      exact findLetter_merge_letter_clue_self b ws

theorem findLetter_merge_letter_clue_other {c : Char} (b : WordClueLetter)
    (hc : c ≠ b.letter) :
    ∀ A : List WordClueLetter, findLetter c (merge_letter_clue A b) = findLetter c A
  | [] => by
    rw [merge_letter_clue, findLetter_cons, if_neg (fun h => hc h.symm)]
  | w :: ws => by
    by_cases h : w.letter = b.letter
    · rw [merge_letter_clue, if_pos h, findLetter_cons, findLetter_cons]
      have : ¬ w.letter = c := fun hw => hc (hw.symm.trans h)
      rw [if_neg this, if_neg this]
    · rw [merge_letter_clue, if_neg h, findLetter_cons, findLetter_cons]
      by_cases hw : w.letter = c
      · rw [if_pos hw, if_pos hw]
      · rw [if_neg hw, if_neg hw]
        exact findLetter_merge_letter_clue_other b hc ws

theorem lettersKeys_merge_letter_clue (b : WordClueLetter) :
    ∀ A : List WordClueLetter,
      lettersKeys (merge_letter_clue A b) =
        if b.letter ∈ lettersKeys A then lettersKeys A else lettersKeys A ++ [b.letter]
  | [] => by simp [merge_letter_clue, lettersKeys]
  | w :: ws => by
    by_cases h : w.letter = b.letter
    · rw [merge_letter_clue, if_pos h]
      have : b.letter ∈ lettersKeys (w :: ws) := by
        rw [lettersKeys]
        exact h ▸ List.mem_cons_self _ _
      rw [if_pos this]
      simp [lettersKeys]
    · rw [merge_letter_clue, if_neg h]
      have hk : lettersKeys (w :: merge_letter_clue ws b)
          = w.letter :: lettersKeys (merge_letter_clue ws b) := rfl
      have hk2 : lettersKeys (w :: ws) = w.letter :: lettersKeys ws := rfl
      rw [hk, hk2, lettersKeys_merge_letter_clue b ws]
      by_cases hb : b.letter ∈ lettersKeys ws
      · rw [if_pos hb, if_pos (List.mem_cons.2 (Or.inr hb))]
      · rw [if_neg hb, if_neg ?_]
        · rfl
        · intro hmem
          rcases List.mem_cons.1 hmem with h' | h'
          · exact h h'.symm
          · exact hb h'

theorem lettersWf_merge_letter_clue {A : List WordClueLetter} (b : WordClueLetter)
    (hA : LettersWf A) : LettersWf (merge_letter_clue A b) := by
  rw [LettersWf, lettersKeys_merge_letter_clue]
  by_cases h : b.letter ∈ lettersKeys A
  · rw [if_pos h]
    exact hA
  · rw [if_neg h]
    simpa [List.nodup_append] using And.intro hA h

theorem lettersWf_foldl_merge_letter_clue :
    ∀ (B A : List WordClueLetter), LettersWf A → LettersWf (B.foldl merge_letter_clue A)
  | [], _, hA => hA
  | b :: bs, A, hA =>
    lettersWf_foldl_merge_letter_clue bs _ (lettersWf_merge_letter_clue b hA)

theorem combineOpt_none_right (a : Option WordClueLetter) : combineOpt a none = a := by
  cases a <;> rfl

theorem findLetter_foldl_merge_letter_clue (c : Char) :
    ∀ (B A : List WordClueLetter), LettersWf B →
      findLetter c (B.foldl merge_letter_clue A) =
        combineOpt (findLetter c A) (findLetter c B)
  | [], A, _ => by
    have h : findLetter c ([] : List WordClueLetter) = none := rfl
    rw [List.foldl_nil, h, combineOpt_none_right]
  | b :: bs, A, hB => by
    have hBtail : LettersWf bs := by
      rw [LettersWf, lettersKeys] at hB ⊢
      exact (List.nodup_cons.1 hB).2
    have hbnot : b.letter ∉ lettersKeys bs := by
      rw [LettersWf, lettersKeys] at hB
      exact (List.nodup_cons.1 hB).1
    rw [List.foldl_cons, findLetter_foldl_merge_letter_clue c bs _ hBtail]
    by_cases hc : c = b.letter
    · rw [hc, findLetter_merge_letter_clue_self, (findLetter_eq_none).2 hbnot,
        combineOpt_none_right, findLetter_cons, if_pos rfl]
      rfl
    · rw [findLetter_merge_letter_clue_other b hc, findLetter_cons,
        if_neg (fun h => hc h.symm)]

/-! ## Lemmas: position merging -/

theorem combinePos_LL (x y : Char) :
    combinePos (.Letter x) (.Letter y) =
      if x = y then .ok (.Letter x)
      else .error ("Conflict: " ++ String.singleton x ++ " != " ++ String.singleton y) := rfl

theorem combinePos_LE (x : Char) (v : List Char) :
    combinePos (.Letter x) (.Exclude v) = .ok (.Letter x) := rfl

theorem combinePos_EL (v : List Char) (y : Char) :
    combinePos (.Exclude v) (.Letter y) = .ok (.Letter y) := rfl

theorem combinePos_EE (u v : List Char) :
    combinePos (.Exclude u) (.Exclude v) = .ok (.Exclude (canonChars (u ++ v))) := rfl

theorem combinePos_ok_left_letter {x : Char} {p q : WordCluePattern}
    (h : combinePos (.Letter x) p = .ok q) : q = .Letter x := by
  cases p with
  | Letter y =>
    rw [combinePos_LL] at h
    by_cases hxy : x = y
    · rw [if_pos hxy] at h
      cases h
      rfl
    · rw [if_neg hxy] at h
      cases h
  | Exclude v =>
    rw [combinePos_LE] at h
    cases h
    rfl

theorem combinePos_ok_right_letter {y : Char} {p q : WordCluePattern}
    (h : combinePos p (.Letter y) = .ok q) : q = .Letter y := by
  cases p with
  | Letter x =>
    rw [combinePos_LL] at h
    by_cases hxy : x = y
    · rw [if_pos hxy] at h
      cases h
      rw [hxy]
    · rw [if_neg hxy] at h
      cases h
  | Exclude v =>
    rw [combinePos_EL] at h
    cases h
    rfl

theorem combinePos_ok_letter_src {p q : WordCluePattern} {x : Char}
    (h : combinePos p q = .ok (.Letter x)) : p = .Letter x ∨ q = .Letter x := by
  cases p with
  | Letter a =>
    exact Or.inl (by rw [combinePos_ok_left_letter h])
  | Exclude v =>
    cases q with
    | Letter b =>
      rw [combinePos_EL] at h
      cases h
      exact Or.inr rfl
    | Exclude u =>
      rw [combinePos_EE] at h
      cases h

theorem combinePos_error_iff {p q : WordCluePattern} :
    (∃ e, combinePos p q = .error e) ↔
      ∃ x y, p = .Letter x ∧ q = .Letter y ∧ x ≠ y := by
  constructor
  · rintro ⟨e, he⟩
    cases p with
    | Letter x =>
      cases q with
      | Letter y =>
        rw [combinePos_LL] at he
        by_cases hxy : x = y
        · rw [if_pos hxy] at he
          cases he
        · exact ⟨x, y, rfl, rfl, hxy⟩
      | Exclude v =>
        rw [combinePos_LE] at he
        cases he
    | Exclude v =>
      cases q with
      | Letter y =>
        rw [combinePos_EL] at he
        cases he
      | Exclude u =>
        rw [combinePos_EE] at he
        cases he
  · rintro ⟨x, y, rfl, rfl, hxy⟩
    rw [combinePos_LL, if_neg hxy]
    exact ⟨_, rfl⟩

theorem combinePos_ok_of_no_conflict {p q : WordCluePattern}
    (h : ∀ x y, p = .Letter x → q = .Letter y → x = y) :
    ∃ r, combinePos p q = .ok r := by
  rcases hc : combinePos p q with e | r
  · rcases combinePos_error_iff.1 ⟨_, hc⟩ with ⟨x, y, hp, hq, hxy⟩
    exact absurd (h x y hp hq) hxy
  · exact ⟨r, rfl⟩

theorem zipCombine_ok_spec :
    ∀ {as bs ps : List WordCluePattern}, zipCombine as bs = .ok ps →
      ps.length = Nat.min as.length bs.length ∧
      ∀ i, (ha : i < as.length) → (hb : i < bs.length) →
        ∃ (hp : i < ps.length), combinePos as[i] bs[i] = .ok ps[i]
  | [], bs, ps, h => by
    rw [zipCombine] at h
    cases h
    exact ⟨by simp, fun i ha hb => absurd ha (Nat.not_lt_zero i)⟩
  | a :: as, [], ps, h => by
    rw [zipCombine] at h
    cases h
    exact ⟨by simp, fun i ha hb => absurd hb (Nat.not_lt_zero i)⟩
  | a :: as, b :: bs, ps, h => by
    rw [zipCombine] at h
    rcases hcb : combinePos a b with e | p
    · rw [hcb] at h
      cases h
    · rw [hcb] at h
      rcases hzc : zipCombine as bs with e | ps'
      · rw [hzc] at h
        cases h
      · rw [hzc] at h
        cases h
        rcases zipCombine_ok_spec hzc with ⟨hlen, hpt⟩
        refine ⟨by simp [hlen, Nat.succ_min_succ], ?_⟩
        intro i ha hb
        cases i with
        | zero =>
          refine ⟨Nat.succ_pos _, ?_⟩
          simpa using hcb
        | succ j =>
          have ha' : j < as.length := Nat.lt_of_succ_lt_succ ha
          have hb' : j < bs.length := Nat.lt_of_succ_lt_succ hb
          rcases hpt j ha' hb' with ⟨hp', hcomb⟩
          refine ⟨Nat.succ_lt_succ hp', ?_⟩
          simpa using hcomb

theorem zipCombine_ok_of_pointwise :
    ∀ {as bs : List WordCluePattern},
      (∀ i, (ha : i < as.length) → (hb : i < bs.length) →
        ∃ r, combinePos as[i] bs[i] = .ok r) →
      ∃ ps, zipCombine as bs = .ok ps
  | [], bs, _ => ⟨[], by rw [zipCombine]⟩
  | a :: as, [], _ => ⟨[], by rw [zipCombine]⟩
  | a :: as, b :: bs, h => by
    rcases h 0 (Nat.succ_pos _) (Nat.succ_pos _) with ⟨r, hr⟩
    rcases zipCombine_ok_of_pointwise
        (fun i ha hb => by
          rcases h (i + 1) (Nat.succ_lt_succ ha) (Nat.succ_lt_succ hb) with ⟨r', hr'⟩
          exact ⟨r', by simpa using hr'⟩) with ⟨ps, hps⟩
    refine ⟨r :: ps, ?_⟩
    rw [zipCombine]
    have hr0 : combinePos a b = .ok r := by simpa using hr
    rw [hr0, hps]

theorem zipCombine_error_exists_iff {as bs : List WordCluePattern} :
    (∃ e, zipCombine as bs = .error e) ↔
      ∃ (i : Nat) (x y : Char), as[i]? = some (WordCluePattern.Letter x)
        ∧ bs[i]? = some (WordCluePattern.Letter y) ∧ x ≠ y := by
  constructor
  · rintro ⟨e, he⟩
    by_contra hno
    rcases @zipCombine_ok_of_pointwise as bs
        (fun i ha hb => combinePos_ok_of_no_conflict (fun x y hx hy => by
          by_contra hxy
          exact hno ⟨i, x, y, by rw [← hx]; exact List.getElem?_eq_getElem ha,
            by rw [← hy]; exact List.getElem?_eq_getElem hb, hxy⟩)) with ⟨ps, hps⟩
    rw [hps] at he
    cases he
  · rintro ⟨i, x, y, hx, hy, hxy⟩
    rcases List.getElem?_eq_some.1 hx with ⟨ha, hxa⟩
    rcases List.getElem?_eq_some.1 hy with ⟨hb, hyb⟩
    rcases hzc : zipCombine as bs with e | ps
    · exact ⟨e, rfl⟩
    · rcases zipCombine_ok_spec hzc with ⟨_, hpt⟩
      rcases hpt i ha hb with ⟨hp, hcomb⟩
      rw [hxa, hyb, combinePos_LL, if_neg hxy] at hcomb
      cases hcomb

theorem merge_ok_spec {a b m : WordClue} (h : merge a b = .ok m) :
    a.pattern.length = b.pattern.length ∧
    zipCombine a.pattern b.pattern = .ok m.pattern ∧
    m.letters = b.letters.foldl merge_letter_clue a.letters := by
  rw [merge] at h
  by_cases hlen : a.pattern.length ≠ b.pattern.length
  · rw [if_pos hlen] at h
    cases h
  · rw [if_neg hlen] at h
    push_neg at hlen
    rcases hzc : zipCombine a.pattern b.pattern with e | pat
    · rw [hzc] at h
      cases h
    · rw [hzc] at h
      cases h
      exact ⟨hlen, rfl, rfl⟩

theorem merge_ok_of {a b : WordClue} {pat : List WordCluePattern}
    (hlen : a.pattern.length = b.pattern.length)
    (hzc : zipCombine a.pattern b.pattern = .ok pat) :
    merge a b = .ok ⟨pat, b.letters.foldl merge_letter_clue a.letters⟩ := by
  rw [merge, if_neg (fun h => h hlen), hzc]

theorem merge_ok_len {a b m : WordClue} (h : merge a b = .ok m) :
    m.pattern.length = a.pattern.length ∧ m.pattern.length = b.pattern.length := by
  rcases merge_ok_spec h with ⟨hlen, hzc, _⟩
  rcases zipCombine_ok_spec hzc with ⟨hl, _⟩
  rw [hlen] at hl
  have hmin : Nat.min b.pattern.length b.pattern.length = b.pattern.length :=
    Nat.min_self _
  rw [hmin] at hl
  exact ⟨hlen ▸ hl, hl⟩

theorem merge_ok_get {a b m : WordClue} (h : merge a b = .ok m) :
    ∀ i, (hi : i < m.pattern.length) →
      ∃ (ha : i < a.pattern.length) (hb : i < b.pattern.length),
        combinePos a.pattern[i] b.pattern[i] = .ok m.pattern[i] := by
  intro i hi
  rcases merge_ok_spec h with ⟨hlen, hzc, _⟩
  have ha : i < a.pattern.length := by
    rw [← (merge_ok_len h).1]
    exact hi
  have hb : i < b.pattern.length := by
    rw [← (merge_ok_len h).2]
    exact hi
  rcases (zipCombine_ok_spec hzc).2 i ha hb with ⟨hp, hcomb⟩
  exact ⟨ha, hb, hcomb⟩

/-! ## Lemmas: clue extraction -/

theorem findLetter_incrCount_self (c : Char) :
    ∀ L : List WordClueLetter,
      findLetter c (incrCount L c) = addCI c (findLetter c L) 1
  | [] => by
    rw [incrCount, findLetter_cons, if_pos rfl]
    rfl
  | w :: ws => by
    by_cases h : w.letter = c
    · rw [incrCount, if_pos h, findLetter_cons, if_pos h, findLetter_cons, if_pos h]
      rfl
    · rw [incrCount, if_neg h, findLetter_cons, if_neg h, findLetter_cons, if_neg h]
      exact findLetter_incrCount_self c ws

theorem findLetter_incrCount_other {c d : Char} (hcd : c ≠ d) :
    ∀ L : List WordClueLetter, findLetter c (incrCount L d) = findLetter c L
  | [] => by
    rw [incrCount, findLetter_cons, if_neg (fun h : d = c => hcd h.symm)]
  | w :: ws => by
    by_cases h : w.letter = d
    · rw [incrCount, if_pos h, findLetter_cons, findLetter_cons]
      have hwc : ¬ w.letter = c := fun hw => hcd (hw.symm.trans h)
      rw [if_neg hwc, if_neg hwc]
    · rw [incrCount, if_neg h, findLetter_cons, findLetter_cons]
      by_cases hw : w.letter = c
      · rw [if_pos hw, if_pos hw]
      · rw [if_neg hw, if_neg hw]
        exact findLetter_incrCount_other hcd ws

theorem addCI_one (c : Char) (o : Option WordClueLetter) (k : Nat) :
    addCI c (addCI c o 1) k = addCI c o (k + 1) := by
  cases o with
  | some w =>
    cases k with
    | zero => rfl
    | succ j =>
      simp [addCI]
      omega
  | none =>
    cases k with
    | zero => rfl
    | succ j =>
      simp [addCI]
      omega

theorem phase1_find (c : Char) :
    ∀ (w : WordAnswer) (st : ExtractState),
      findLetter c ((w.foldl extractStep st).letter_clues) =
        addCI c (findLetter c st.letter_clues) (ciCount c w)
  | [], st => by
    rw [List.foldl_nil]
    have h0 : ciCount c [] = 0 := rfl
    rw [h0]
    simp [addCI]
  | la :: w', st => by
    rw [List.foldl_cons, phase1_find c w' (extractStep st la)]
    have hcc : ciCount c (la :: w') = ciCount c w' + (if isCI c la then 1 else 0) := by
      rw [ciCount, ciCount, List.countP_cons]
    rw [hcc]
    rcases la with ⟨l, ans⟩
    cases ans with
    | Correct =>
      by_cases hl : l = c
      · subst hl
        have hci : isCI l ⟨l, LetterAnswerType.Correct⟩ = true := by
          simp [isCI]
        simp only [hci, if_true, extractStep]
        rw [findLetter_incrCount_self, addCI_one]
      · have hci : isCI c ⟨l, LetterAnswerType.Correct⟩ = false := by
          simp [isCI, hl]
        simp only [hci, if_false, Nat.add_zero, Bool.false_eq_true, extractStep]
        rw [findLetter_incrCount_other (fun h => hl h.symm)]
    | Incorrect =>
      by_cases hl : l = c
      · subst hl
        have hci : isCI l ⟨l, LetterAnswerType.Incorrect⟩ = true := by
          simp [isCI]
        simp only [hci, if_true, extractStep]
        rw [findLetter_incrCount_self, addCI_one]
      · have hci : isCI c ⟨l, LetterAnswerType.Incorrect⟩ = false := by
          simp [isCI, hl]
        simp only [hci, if_false, Nat.add_zero, Bool.false_eq_true, extractStep]
        rw [findLetter_incrCount_other (fun h => hl h.symm)]
    | NotInWord =>
      have hci : isCI c ⟨l, LetterAnswerType.NotInWord⟩ = false := by
        simp [isCI]
      simp only [hci, if_false, Nat.add_zero, Bool.false_eq_true, extractStep]

theorem phase1_exclude :
    ∀ (w : WordAnswer) (st : ExtractState),
      (w.foldl extractStep st).exclude =
        st.exclude ++ w.filterMap
          (fun la => if la.answer = LetterAnswerType.NotInWord then some la.letter else none)
  | [], st => by
    rw [List.foldl_nil, List.filterMap_nil, List.append_nil]
  | la :: w', st => by
    rw [List.foldl_cons, phase1_exclude w' (extractStep st la), List.filterMap_cons]
    rcases la with ⟨l, ans⟩
    cases ans with
    | Correct =>
      rw [extractStep]
      simp
    | Incorrect =>
      rw [extractStep]
      simp
    | NotInWord =>
      rw [extractStep]
      simp

theorem incrCount_exact_false {L : List WordClueLetter} (d : Char)
    (hL : ∀ e ∈ L, e.exact = false) : ∀ e ∈ incrCount L d, e.exact = false := by
  induction L with
  | nil =>
    intro e he
    rw [incrCount] at he
    rcases List.mem_singleton.1 he with rfl
    rfl
  | cons w ws ih =>
    intro e he
    by_cases h : w.letter = d
    · rw [incrCount, if_pos h] at he
      rcases List.mem_cons.1 he with rfl | he'
      · exact hL w (List.mem_cons_self w ws)
      · exact hL e (List.mem_cons.2 (Or.inr he'))
    · rw [incrCount, if_neg h] at he
      rcases List.mem_cons.1 he with rfl | he'
      · exact hL e (List.mem_cons_self e ws)
      · exact ih (fun x hx => hL x (List.mem_cons.2 (Or.inr hx))) e he'

theorem phase1_exact_false :
    ∀ (w : WordAnswer) (st : ExtractState),
      (∀ e ∈ st.letter_clues, e.exact = false) →
      ∀ e ∈ (w.foldl extractStep st).letter_clues, e.exact = false
  | [], st, hst => hst
  | la :: w', st, hst => by
    rw [List.foldl_cons]
    refine phase1_exact_false w' (extractStep st la) ?_
    rcases la with ⟨l, ans⟩
    cases ans with
    | Correct => exact incrCount_exact_false l hst
    | Incorrect => exact incrCount_exact_false l hst
    | NotInWord => exact hst

theorem markExact_none_iff {e : Char} :
    ∀ L : List WordClueLetter, markExact L e = none ↔ findLetter e L = none
  | [] => by
    constructor
    · intro _
      rfl
    · intro _
      rfl
  | w :: ws => by
    by_cases h : w.letter = e
    · rw [markExact, if_pos h, findLetter_cons, if_pos h]
      simp
    · rw [markExact, if_neg h, findLetter_cons, if_neg h, Option.map_eq_none']
      exact markExact_none_iff ws

theorem markExact_find_self {e : Char} :
    ∀ {L L' : List WordClueLetter}, markExact L e = some L' →
      ∃ w, findLetter e L = some w ∧ findLetter e L' = some ⟨w.letter, w.count, true⟩
  | [], _, h => by cases h
  | w :: ws, L', h => by
    by_cases hw : w.letter = e
    · rw [markExact, if_pos hw] at h
      cases h
      refine ⟨w, by rw [findLetter_cons, if_pos hw], ?_⟩
      rw [findLetter_cons]
      exact if_pos hw
    · rw [markExact, if_neg hw] at h
      rcases hm : markExact ws e with _ | ws'
      · rw [hm] at h
        cases h
      · rw [hm] at h
        cases h
        rcases markExact_find_self hm with ⟨v, hv1, hv2⟩
        refine ⟨v, ?_, ?_⟩
        · rw [findLetter_cons, if_neg hw]
          exact hv1
        · rw [findLetter_cons, if_neg hw]
          exact hv2

theorem markExact_find_other {e c : Char} (hc : c ≠ e) :
    ∀ {L L' : List WordClueLetter}, markExact L e = some L' →
      findLetter c L' = findLetter c L
  | [], _, h => by cases h
  | w :: ws, L', h => by
    by_cases hw : w.letter = e
    · rw [markExact, if_pos hw] at h
      cases h
      rw [findLetter_cons, findLetter_cons]
      have hwc : ¬ w.letter = c := fun h' => hc (h'.symm.trans hw)
      rw [if_neg hwc, if_neg hwc]
    · rw [markExact, if_neg hw] at h
      rcases hm : markExact ws e with _ | ws'
      · rw [hm] at h
        cases h
      · rw [hm] at h
        cases h
        rw [findLetter_cons, findLetter_cons]
        by_cases hwc : w.letter = c
        · rw [if_pos hwc, if_pos hwc]
        · rw [if_neg hwc, if_neg hwc]
          exact markExact_find_other hc hm

theorem markExact_isNone_eq {e : Char} {L L' : List WordClueLetter}
    (h : markExact L e = some L') (c : Char) :
    (findLetter c L').isNone = (findLetter c L).isNone := by
  by_cases hc : c = e
  · subst hc
    rcases markExact_find_self h with ⟨w, h1, h2⟩
    rw [h1, h2]
    rfl
  · rw [markExact_find_other hc h]

theorem resolveExclude_find (c : Char) :
    ∀ (es : List Char) (L : List WordClueLetter) (acc : List Char),
      findLetter c ((resolveExclude L acc es).1) =
        match findLetter c L with
        | none => none
        | some w => some ⟨w.letter, w.count, w.exact || decide (c ∈ es)⟩
  | [], L, acc => by
    rcases hf : findLetter c L with _ | w
    · rw [resolveExclude, hf]
    · rw [resolveExclude, hf]
      rcases w with ⟨wl, wc, we⟩
      simp
  | e :: es', L, acc => by
    rcases hm : markExact L e with _ | L2
    · have hfe : findLetter e L = none := (markExact_none_iff L).1 hm
      rw [resolveExclude, hm, resolveExclude_find c es' L (acc ++ [e])]
      by_cases hc : c = e
      · subst hc
        rw [hfe]
      · rcases hf : findLetter c L with _ | w
        · rfl
        · have hmem : (c ∈ e :: es') ↔ (c ∈ es') := by
            rw [List.mem_cons]
            exact ⟨fun h' => h'.resolve_left hc, Or.inr⟩
          simp [hmem]
    · rw [resolveExclude, hm, resolveExclude_find c es' L2 acc]
      by_cases hc : c = e
      · subst hc
        rcases markExact_find_self hm with ⟨w, h1, h2⟩
        rw [h1, h2]
        simp
      · rw [markExact_find_other hc hm]
        rcases hf : findLetter c L with _ | w
        · rfl
        · have hmem : (c ∈ e :: es') ↔ (c ∈ es') := by
            rw [List.mem_cons]
            exact ⟨fun h' => h'.resolve_left hc, Or.inr⟩
          simp [hmem]

theorem resolveExclude_result :
    ∀ (es : List Char) (L : List WordClueLetter) (acc : List Char),
      (resolveExclude L acc es).2 =
        acc ++ es.filter (fun e => (findLetter e L).isNone)
  | [], L, acc => by
    rw [resolveExclude, List.filter_nil, List.append_nil]
  | e :: es', L, acc => by
    rcases hm : markExact L e with _ | L2
    · have hfe : findLetter e L = none := (markExact_none_iff L).1 hm
      rw [resolveExclude, hm, resolveExclude_result es' L (acc ++ [e]), List.filter_cons]
      have : (findLetter e L).isNone = true := by
        rw [hfe]
        rfl
      rw [if_pos this, List.append_assoc]
      rfl
    · have hfe : (findLetter e L).isNone = false := by
        rcases markExact_find_self hm with ⟨w, h1, _⟩
        rw [h1]
        rfl
      rw [resolveExclude, hm, resolveExclude_result es' L2 acc, List.filter_cons, hfe]
      have hcong : es'.filter (fun x => (findLetter x L2).isNone)
          = es'.filter (fun x => (findLetter x L).isNone) :=
        List.filter_congr (fun x _ => markExact_isNone_eq hm x)
      rw [hcong]
      rfl

theorem resolveExclude_clues_id :
    ∀ (es : List Char) (L : List WordClueLetter) (acc : List Char),
      (∀ e ∈ es, findLetter e L = none) → (resolveExclude L acc es).1 = L
  | [], L, acc, _ => rfl
  | e :: es', L, acc, h => by
    have hm : markExact L e = none :=
      (markExact_none_iff L).2 (h e (List.mem_cons_self e es'))
    rw [resolveExclude, hm]
    exact resolveExclude_clues_id es' L (acc ++ [e])
      (fun x hx => h x (List.mem_cons.2 (Or.inr hx)))

theorem mem_notInWordLetters {c : Char} {w : WordAnswer} :
    c ∈ notInWordLetters w ↔ 0 < niCount c w := by
  rw [notInWordLetters, niCount, List.countP_pos]
  rw [List.mem_filterMap]
  constructor
  · rintro ⟨la, hla, hf⟩
    by_cases hni : la.answer = LetterAnswerType.NotInWord
    · rw [if_pos hni] at hf
      cases hf
      refine ⟨la, hla, ?_⟩
      rw [isNI]
      simp [hni]
    · rw [if_neg hni] at hf
      cases hf
  · rintro ⟨la, hla, hni⟩
    rw [isNI, Bool.and_eq_true, beq_iff_eq, beq_iff_eq] at hni
    exact ⟨la, hla, by rw [if_pos hni.2, hni.1]⟩

theorem extract_clue_letters (w : WordAnswer) :
    (extract_clue w).letters =
      (resolveExclude (w.foldl extractStep ⟨[], [], []⟩).letter_clues []
        ((w.foldl extractStep ⟨[], [], []⟩).exclude)).1 := rfl

theorem extract_clue_pattern (w : WordAnswer) :
    (extract_clue w).pattern =
      ((w.foldl extractStep ⟨[], [], []⟩).pattern).map
        (finalizePattern
          ((resolveExclude (w.foldl extractStep ⟨[], [], []⟩).letter_clues []
            ((w.foldl extractStep ⟨[], [], []⟩).exclude)).2)) := rfl

theorem initState_exclude : (⟨[], [], []⟩ : ExtractState).exclude = [] := rfl

theorem phase1_exclude_init (w : WordAnswer) :
    (w.foldl extractStep ⟨[], [], []⟩).exclude = notInWordLetters w := by
  rw [phase1_exclude w ⟨[], [], []⟩, initState_exclude, List.nil_append, notInWordLetters]

theorem phase1_find_init (c : Char) (w : WordAnswer) :
    findLetter c ((w.foldl extractStep ⟨[], [], []⟩).letter_clues) =
      addCI c none (ciCount c w) := phase1_find c w ⟨[], [], []⟩

/-- The find result in the final clue of `extract_clue`: the count entry, if
any, has the Correct/Incorrect count, and is exact iff the letter also got a
NotInWord verdict. -/
theorem findLetter_extract_clue (c : Char) (w : WordAnswer) :
    findLetter c (extract_clue w).letters =
      match addCI c none (ciCount c w) with
      | none => none
      | some v => some ⟨v.letter, v.count, v.exact || decide (c ∈ notInWordLetters w)⟩ := by
  rw [extract_clue_letters, phase1_exclude_init,
    resolveExclude_find c (notInWordLetters w) _ [], phase1_find_init]

theorem ciCount_add_niCount_le (c : Char) :
    ∀ w : WordAnswer, ciCount c w + niCount c w ≤ w.countP (fun la => la.letter == c)
  | [] => Nat.le_refl 0
  | la :: w' => by
    have ih := ciCount_add_niCount_le c w'
    rw [ciCount, niCount, List.countP_cons, List.countP_cons, List.countP_cons]
    rw [ciCount, niCount] at ih
    have hpq : ¬(isCI c la = true ∧ isNI c la = true) := by
      rcases la with ⟨l, ans⟩
      cases ans <;> simp [isCI, isNI]
    have hpr : isCI c la = true → (la.letter == c) = true := by
      rw [isCI, Bool.and_eq_true]
      exact fun h => h.1
    have hqr : isNI c la = true → (la.letter == c) = true := by
      rw [isNI, Bool.and_eq_true]
      exact fun h => h.1
    by_cases h1 : isCI c la = true <;> by_cases h2 : isNI c la = true <;>
      simp [h1, h2, hpr, hqr] at * <;> omega

theorem count_letters_eq_countP (c : Char) (w : WordAnswer) :
    (w.map (fun la => la.letter)).count c = w.countP (fun la => la.letter == c) := by
  rw [List.count, List.countP_map]
  rfl

/-- In a guess without repeated letters, a NotInWord letter has no
Correct/Incorrect verdict. -/
theorem ciCount_eq_zero_of_nodup {c : Char} {w : WordAnswer}
    (hnd : (w.map (fun la => la.letter)).Nodup) (hni : 0 < niCount c w) :
    ciCount c w = 0 := by
  have hle1 : (w.map (fun la => la.letter)).count c ≤ 1 :=
    List.nodup_iff_count_le_one.1 hnd c
  have := ciCount_add_niCount_le c w
  rw [← count_letters_eq_countP] at this
  omega

theorem ciCount_pos_iff {c : Char} {w : WordAnswer} :
    0 < ciCount c w ↔ ∃ la ∈ w, isCI c la = true := by
  rw [ciCount, List.countP_pos]

theorem addCI_none_zero (c : Char) : addCI c none 0 = none := rfl

theorem addCI_none_pos {c : Char} {k : Nat} (hk : 0 < k) :
    addCI c none k = some ⟨c, k, false⟩ := by
  rw [addCI, if_neg (by omega)]

/-! ## Pattern invariant lemmas -/

theorem phase1_pattern_exclude_ne_nil :
    ∀ (w : WordAnswer) (st : ExtractState),
      (∀ p ∈ st.pattern, ∀ v, p = WordCluePattern.Exclude v → v ≠ []) →
      ∀ p ∈ (w.foldl extractStep st).pattern, ∀ v, p = WordCluePattern.Exclude v → v ≠ []
  | [], _, h => h
  | la :: w', st, h => by
    rw [List.foldl_cons]
    refine phase1_pattern_exclude_ne_nil w' (extractStep st la) ?_
    rcases la with ⟨l, ans⟩
    cases ans with
    | Correct =>
      intro p hp v hv
      simp only [extractStep] at hp
      rcases List.mem_append.1 hp with h1 | h2
      · exact h p h1 v hv
      · rcases List.mem_singleton.1 h2 with rfl
        cases hv
    | Incorrect =>
      intro p hp v hv
      simp only [extractStep] at hp
      rcases List.mem_append.1 hp with h1 | h2
      · exact h p h1 v hv
      · rcases List.mem_singleton.1 h2 with rfl
        cases hv
        simp
    | NotInWord =>
      intro p hp v hv
      simp only [extractStep] at hp
      rcases List.mem_append.1 hp with h1 | h2
      · exact h p h1 v hv
      · rcases List.mem_singleton.1 h2 with rfl
        cases hv
        simp

theorem extract_clue_PatInv (w : WordAnswer) :
    ∀ p ∈ (extract_clue w).pattern, PatInv p := by
  intro p hp
  rw [extract_clue_pattern] at hp
  rcases List.mem_map.1 hp with ⟨p0, hp0, rfl⟩
  cases p0 with
  | Letter l =>
    simp only [finalizePattern]
    trivial
  | Exclude v0 =>
    have hne : v0 ≠ [] :=
      phase1_pattern_exclude_ne_nil w ⟨[], [], []⟩
        (fun p hp => absurd hp (List.not_mem_nil p)) _ hp0 v0 rfl
    simp only [finalizePattern]
    refine ⟨canonChars_ne_nil ?_, canonChars_pairwise_lt _⟩
    intro hnil
    exact hne (List.append_eq_nil.1 hnil).1

theorem merge_PatInv {a b m : WordClue} (h : merge a b = .ok m)
    (ha : ∀ p ∈ a.pattern, PatInv p) (hb : ∀ p ∈ b.pattern, PatInv p) :
    ∀ p ∈ m.pattern, PatInv p := by
  intro p hp
  rcases List.mem_iff_getElem.1 hp with ⟨i, hi, rfl⟩
  rcases merge_ok_get h i hi with ⟨hia, hib, hcomb⟩
  cases hpa : a.pattern[i] with
  | Letter x =>
    rw [hpa] at hcomb
    rw [combinePos_ok_left_letter hcomb]
    trivial
  | Exclude u =>
    cases hpb : b.pattern[i] with
    | Letter y =>
      rw [hpa, hpb, combinePos_EL] at hcomb
      have heq := Except.ok.inj hcomb
      rw [← heq]
      trivial
    | Exclude v =>
      rw [hpa, hpb, combinePos_EE] at hcomb
      have heq := Except.ok.inj hcomb
      rw [← heq]
      have hu : PatInv (WordCluePattern.Exclude u) := by
        have := ha (a.pattern[i]) (List.getElem_mem hia)
        rw [hpa] at this
        exact this
      refine ⟨canonChars_ne_nil ?_, canonChars_pairwise_lt _⟩
      intro hnil
      exact hu.1 (List.append_eq_nil.1 hnil).1

/-! ## Claim theorems -/

/-- **C4**: in a single guess, a letter with at least one Correct/Incorrect
verdict and also a NotInWord verdict gets a letters entry with `exact = true`
and count equal to its number of Correct/Incorrect verdicts; and a guess with
no repeated letters produces no `exact` entry at all. -/
theorem extract_clue_exact_counts (w : WordAnswer) :
    (∀ c : Char, 0 < ciCount c w → 0 < niCount c w →
      findLetter c (extract_clue w).letters = some ⟨c, ciCount c w, true⟩) ∧
    ((w.map (fun la => la.letter)).Nodup →
      ∀ e ∈ (extract_clue w).letters, e.exact = false) := by
  constructor
  · intro c hci hni
    rw [findLetter_extract_clue, addCI_none_pos hci]
    have hmem : c ∈ notInWordLetters w := mem_notInWordLetters.2 hni
    simp [hmem]
  · intro hnd e he
    have hid : (extract_clue w).letters = (w.foldl extractStep ⟨[], [], []⟩).letter_clues := by
      rw [extract_clue_letters, phase1_exclude_init]
      refine resolveExclude_clues_id _ _ [] ?_
      intro x hx
      have hni := mem_notInWordLetters.1 hx
      have hci : ciCount x w = 0 := ciCount_eq_zero_of_nodup hnd hni
      rw [phase1_find_init, hci, addCI_none_zero]
    rw [hid] at he
    exact phase1_exact_false w ⟨[], [], []⟩
      (fun e' he' => absurd he' (List.not_mem_nil e')) e he

/-- Witness for `extract_clue_exact_counts` at the guesses `S2S0` and
`A2B0`. -/
theorem extract_clue_exact_counts_witness :
    findLetter 'S' (extract_clue
        [⟨'S', LetterAnswerType.Correct⟩, ⟨'S', LetterAnswerType.NotInWord⟩]).letters
      = some ⟨'S', 1, true⟩ ∧
    (∀ e ∈ (extract_clue
        [⟨'A', LetterAnswerType.Correct⟩, ⟨'B', LetterAnswerType.NotInWord⟩]).letters,
      e.exact = false) := by
  constructor
  · have h := (extract_clue_exact_counts
        [⟨'S', LetterAnswerType.Correct⟩, ⟨'S', LetterAnswerType.NotInWord⟩]).1
      'S' (by decide) (by decide)
    have hc : ciCount 'S'
        [⟨'S', LetterAnswerType.Correct⟩, ⟨'S', LetterAnswerType.NotInWord⟩] = 1 := by
      decide
    rw [hc] at h
    exact h
  · exact (extract_clue_exact_counts
        [⟨'A', LetterAnswerType.Correct⟩, ⟨'B', LetterAnswerType.NotInWord⟩]).2
      (by decide)

/-- **C5**: a letter that occurs in a single guess only with the NotInWord
verdict gets no letters entry, and is forbidden by every Excluded position of
the resulting pattern. -/
theorem extract_clue_absent_letter (w : WordAnswer) (c : Char)
    (hex : ∃ la ∈ w, la.letter = c)
    (hall : ∀ la ∈ w, la.letter = c → la.answer = LetterAnswerType.NotInWord) :
    (∀ e ∈ (extract_clue w).letters, e.letter ≠ c) ∧
    (∀ p ∈ (extract_clue w).pattern, ∀ v, p = WordCluePattern.Exclude v → c ∈ v) := by
  have hci : ciCount c w = 0 := by
    rw [ciCount, List.countP_eq_zero]
    intro la hla hisci
    rw [isCI, Bool.and_eq_true, beq_iff_eq] at hisci
    rcases hisci with ⟨hl, hans⟩
    rw [hall la hla hl] at hans
    simp at hans
  have hni : 0 < niCount c w := by
    rcases hex with ⟨la, hla, hl⟩
    rw [niCount, List.countP_pos_iff]
    refine ⟨la, hla, ?_⟩
    rw [isNI]
    simp [hl, hall la hla hl]
  have hfind : findLetter c (extract_clue w).letters = none := by
    rw [findLetter_extract_clue, hci, addCI_none_zero]
  constructor
  · intro e he hlc
    have hk : c ∈ lettersKeys (extract_clue w).letters := by
      rw [lettersKeys]
      exact List.mem_map.2 ⟨e, he, hlc⟩
    exact absurd hk (findLetter_eq_none.1 hfind)
  · have hmemEx : c ∈ (resolveExclude (w.foldl extractStep ⟨[], [], []⟩).letter_clues []
        ((w.foldl extractStep ⟨[], [], []⟩).exclude)).2 := by
      rw [phase1_exclude_init, resolveExclude_result, List.nil_append, List.mem_filter]
      refine ⟨mem_notInWordLetters.2 hni, ?_⟩
      rw [phase1_find_init, hci, addCI_none_zero]
      rfl
    intro p hp v hv
    rw [extract_clue_pattern] at hp
    rcases List.mem_map.1 hp with ⟨p0, hp0, rfl⟩
    cases p0 with
    | Letter l =>
      simp only [finalizePattern] at hv
      cases hv
    | Exclude v0 =>
      simp only [finalizePattern] at hv
      cases hv
      exact mem_canonChars.2 (List.mem_append.2 (Or.inr hmemEx))

/-- Witness for `extract_clue_absent_letter` at the guess `A2B0` and letter
`B`. -/
theorem extract_clue_absent_letter_witness :
    (∀ e ∈ (extract_clue
        [⟨'A', LetterAnswerType.Correct⟩, ⟨'B', LetterAnswerType.NotInWord⟩]).letters,
      e.letter ≠ 'B') ∧
    (∀ p ∈ (extract_clue
        [⟨'A', LetterAnswerType.Correct⟩, ⟨'B', LetterAnswerType.NotInWord⟩]).pattern,
      ∀ v, p = WordCluePattern.Exclude v → 'B' ∈ v) :=
  extract_clue_absent_letter
    [⟨'A', LetterAnswerType.Correct⟩, ⟨'B', LetterAnswerType.NotInWord⟩] 'B'
    (by decide) (by decide)

/-- **C10**: every clue produced by `extract_clue` has only position
constraints that are a fixed letter or a non-empty, sorted, duplicate-free
exclusion list, and `merge` preserves this invariant; in particular no
reachable clue carries an empty Excluded set, so the `[^...]` character
classes built by `filter` are never empty. -/
theorem clue_pattern_invariant :
    (∀ w : WordAnswer, ∀ p ∈ (extract_clue w).pattern, PatInv p) ∧
    (∀ a b m : WordClue, merge a b = .ok m →
      (∀ p ∈ a.pattern, PatInv p) → (∀ p ∈ b.pattern, PatInv p) →
      ∀ p ∈ m.pattern, PatInv p) :=
  ⟨extract_clue_PatInv, fun _ _ _ h ha hb => merge_PatInv h ha hb⟩

/-- Witness for `clue_pattern_invariant`: the merge of the clue of `A0` with
itself keeps the invariant at its single Excluded position. -/
theorem clue_pattern_invariant_witness :
    PatInv (WordCluePattern.Exclude ['A']) := by
  have h1 : ∀ p ∈ (extract_clue [⟨'A', LetterAnswerType.NotInWord⟩]).pattern, PatInv p :=
    clue_pattern_invariant.1 [⟨'A', LetterAnswerType.NotInWord⟩]
  have hm : merge (extract_clue [⟨'A', LetterAnswerType.NotInWord⟩])
      (extract_clue [⟨'A', LetterAnswerType.NotInWord⟩])
      = .ok ⟨[WordCluePattern.Exclude ['A']], []⟩ := rfl
  have h2 := clue_pattern_invariant.2 _ _ _ hm h1 h1
  exact h2 (WordCluePattern.Exclude ['A']) (List.mem_singleton.2 rfl)

/-- **C7**: `merge` fails exactly on pattern-length mismatch or on two
different fixed letters at the same position, and a fixed letter merged with
an exclusion set (in either order) wins. -/
theorem merge_failure_characterization :
    (∀ a b : WordClue,
      (∃ e, merge a b = .error e) ↔
        (a.pattern.length ≠ b.pattern.length ∨
          ∃ (i : Nat) (x y : Char), a.pattern[i]? = some (WordCluePattern.Letter x)
            ∧ b.pattern[i]? = some (WordCluePattern.Letter y) ∧ x ≠ y)) ∧
    (∀ (a b m : WordClue) (i : Nat) (x : Char) (s : List Char), merge a b = .ok m →
      a.pattern[i]? = some (WordCluePattern.Letter x) →
      b.pattern[i]? = some (WordCluePattern.Exclude s) →
      m.pattern[i]? = some (WordCluePattern.Letter x)) ∧
    (∀ (a b m : WordClue) (i : Nat) (x : Char) (s : List Char), merge a b = .ok m →
      a.pattern[i]? = some (WordCluePattern.Exclude s) →
      b.pattern[i]? = some (WordCluePattern.Letter x) →
      m.pattern[i]? = some (WordCluePattern.Letter x)) := by
  refine ⟨?_, ?_, ?_⟩
  · intro a b
    constructor
    · rintro ⟨e, he⟩
      rw [merge] at he
      by_cases hlen : a.pattern.length ≠ b.pattern.length
      · exact Or.inl hlen
      · rw [if_neg hlen] at he
        rcases hzc : zipCombine a.pattern b.pattern with e' | pat
        · exact Or.inr (zipCombine_error_exists_iff.1 ⟨e', hzc⟩)
        · rw [hzc] at he
          cases he
    · intro h
      by_cases hlen : a.pattern.length ≠ b.pattern.length
      · refine ⟨"Pattern length mismatch: " ++ toString a.pattern.length ++ " != "
          ++ toString b.pattern.length, ?_⟩
        rw [merge, if_pos hlen]
      · rcases h with h | h
        · exact absurd h hlen
        · rcases zipCombine_error_exists_iff.2 h with ⟨e, hzc⟩
          refine ⟨e, ?_⟩
          rw [merge, if_neg hlen, hzc]
  · intro a b m i x s h hx hs
    rcases List.getElem?_eq_some.1 hx with ⟨ha, hxa⟩
    rcases List.getElem?_eq_some.1 hs with ⟨hb, hsb⟩
    have hi : i < m.pattern.length := by
      rw [(merge_ok_len h).1]
      exact ha
    rcases merge_ok_get h i hi with ⟨ha', hb', hcomb⟩
    rw [hxa, hsb, combinePos_LE] at hcomb
    rw [List.getElem?_eq_getElem hi, ← Except.ok.inj hcomb]
  · intro a b m i x s h hs hx
    rcases List.getElem?_eq_some.1 hs with ⟨ha, hsa⟩
    rcases List.getElem?_eq_some.1 hx with ⟨hb, hxb⟩
    have hi : i < m.pattern.length := by
      rw [(merge_ok_len h).1]
      exact ha
    rcases merge_ok_get h i hi with ⟨ha', hb', hcomb⟩
    rw [hsa, hxb, combinePos_EL] at hcomb
    rw [List.getElem?_eq_getElem hi, ← Except.ok.inj hcomb]

/-- Witness for `merge_failure_characterization`: a fixed letter wins over an
exclusion set, merging a conflict fails, and merging patterns of lengths 1
and 2 fails. -/
theorem merge_failure_characterization_witness :
    (⟨[WordCluePattern.Letter 'A', WordCluePattern.Letter 'D'],
        ([] : List WordClueLetter)⟩ : WordClue).pattern[0]?
      = some (WordCluePattern.Letter 'A') ∧
    (∃ e, merge ⟨[WordCluePattern.Letter 'A'], []⟩ ⟨[WordCluePattern.Letter 'B'], []⟩
      = .error e) ∧
    (∃ e, merge ⟨[WordCluePattern.Letter 'A'], []⟩
      ⟨[WordCluePattern.Exclude ['B'], WordCluePattern.Letter 'C'], []⟩ = .error e) := by
  refine ⟨?_, ?_, ?_⟩
  · exact merge_failure_characterization.2.1
      ⟨[WordCluePattern.Letter 'A', WordCluePattern.Exclude ['C']], []⟩
      ⟨[WordCluePattern.Exclude ['B'], WordCluePattern.Letter 'D'], []⟩
      ⟨[WordCluePattern.Letter 'A', WordCluePattern.Letter 'D'], []⟩
      0 'A' ['B'] rfl rfl rfl
  · exact (merge_failure_characterization.1 _ _).2
      (Or.inr ⟨0, 'A', 'B', rfl, rfl, by decide⟩)
  · exact (merge_failure_characterization.1 _ _).2 (Or.inl (by decide))

/-- **C8**: a missing corpus bucket is never an error: the filtering path
returns the empty list, and both ranking paths return the `[""]` sentinel;
the ranking paths also return the sentinel on an existing but empty
bucket. -/
theorem absent_bucket_sentinels :
    (∀ (corpus : List (Nat × List (List Char))) (clue : WordClue),
      get_words corpus clue.pattern.length = none → api_words_core corpus clue = []) ∧
    (∀ (corpus : List (Nat × List (List Char))) (n : Nat) (pat : List Char),
      get_words corpus n = none → api_most_letters_route corpus n pat = [[]]) ∧
    (∀ (corpus : List (Nat × List (List Char)))
        (mc : List (Nat × List (Char × Nat))) (n : Nat),
      get_words corpus n = none → api_most_common_route corpus mc n = [[]]) ∧
    (∀ pat : List Char, api_most_letters_core pat [] = [[]]) ∧
    (∀ mc : List (Char × Nat), api_most_common_core mc [] = [[]]) := by
  refine ⟨?_, ?_, ?_, ?_, ?_⟩
  · intro corpus clue h
    rw [api_words_core, h]
  · intro corpus n pat h
    rw [api_most_letters_route, h]
  · intro corpus mc n h
    rw [api_most_common_route, h]
  · intro pat
    rfl
  · intro mc
    rfl

/-- Witness for `absent_bucket_sentinels` on an empty corpus and length 5. -/
theorem absent_bucket_sentinels_witness :
    api_words_core [] ⟨[WordCluePattern.Letter 'A'], []⟩ = [] ∧
    api_most_letters_route [] 5 ['A'] = [[]] ∧
    api_most_common_route [] [] 5 = [[]] :=
  ⟨absent_bucket_sentinels.1 [] ⟨[WordCluePattern.Letter 'A'], []⟩ rfl,
   absent_bucket_sentinels.2.1 [] 5 ['A'] rfl,
   absent_bucket_sentinels.2.2.1 [] [] 5 rfl⟩

/-- **C9**: `filter` does not check word lengths: the regular expressions it
builds are unanchored, so the 1-position clue of the guess `A2` accepts the
3-letter word `BAB` (its positional regex `A` matches a proper substring). -/
theorem filter_no_length_check :
    filterWords (extract_clue [⟨'A', LetterAnswerType.Correct⟩]) [['B', 'A', 'B']]
      = [['B', 'A', 'B']] ∧
    (extract_clue [⟨'A', LetterAnswerType.Correct⟩]).pattern.length = 1 ∧
    (['B', 'A', 'B'] : List Char).length = 3 := by
  refine ⟨by decide, rfl, rfl⟩

/-- **C1** (code bug): the merged clue of the single guess `S2S0X0` carries
the letters entry `{S, minCount 1, exact true}`, yet `filter` accepts the
word `SAS`, which contains two `S`; the exact-count regex `([^S]*S){1}` is
unanchored, so it only enforces "at least one `S`" and the claimed
exactly-`minCount` rejection does not happen. -/
theorem exact_count_not_enforced_by_filter :
    findLetter 'S' (extract_clue
        [⟨'S', LetterAnswerType.Correct⟩, ⟨'S', LetterAnswerType.NotInWord⟩,
          ⟨'X', LetterAnswerType.NotInWord⟩]).letters
      = some ⟨'S', 1, true⟩ ∧
    filterWords (extract_clue
        [⟨'S', LetterAnswerType.Correct⟩, ⟨'S', LetterAnswerType.NotInWord⟩,
          ⟨'X', LetterAnswerType.NotInWord⟩]) [['S', 'A', 'S']]
      = [['S', 'A', 'S']] ∧
    (['S', 'A', 'S'] : List Char).count 'S' = 2 := by
  refine ⟨by decide, by decide, by decide⟩

/-! ## The A0P1P2L0E0 scenario (C2) -/

theorem seqMatchAt_short :
    ∀ (ps : List WordCluePattern) (w : List Char), w.length < ps.length →
      seqMatchAt ps w = false
  | [], w, h => absurd h (by simp)
  | p :: ps', [], _ => rfl
  | p :: ps', c :: cs, h => by
    rw [seqMatchAt, seqMatchAt_short ps' cs (by simpa using h), Bool.and_false]

/-- On a word of exactly the pattern's length, the unanchored positional
match can only start at position 0. -/
theorem patternIsMatch_of_len_eq {ps : List WordCluePattern} {w : List Char}
    (h : w.length = ps.length) : patternIsMatch ps w = seqMatchAt ps w := by
  rw [Bool.eq_iff_iff, patternIsMatch, List.any_eq_true]
  constructor
  · rintro ⟨s, hs, hmatch⟩
    cases s with
    | zero =>
      rw [List.drop_zero] at hmatch
      exact hmatch
    | succ j =>
      rcases ps with _ | ⟨p, ps'⟩
      · exact rfl
      · have hlen : (w.drop (j + 1)).length < (p :: ps').length := by
          rw [List.length_drop, List.length_cons]
          rw [List.length_cons] at h
          omega
        rw [seqMatchAt_short _ _ hlen] at hmatch
        cases hmatch
  · intro hm
    exact ⟨0, List.mem_range.2 (Nat.succ_pos _), by rw [List.drop_zero]; exact hm⟩

theorem contains_eq_false_iff {α : Type} [BEq α] [LawfulBEq α] (l : List α) (a : α) :
    (l.contains a = false) ↔ a ∉ l := by
  rw [Bool.eq_false_iff]
  exact not_congr List.elem_iff

/-- Pointwise form of the corrected A0P1P2L0E0 filter characterization, on
words of length 5. -/
theorem applePointwise (w : List Char) (hw : w.length = 5) :
    (patternIsMatch [WordCluePattern.Exclude ['A', 'E', 'L'],
        WordCluePattern.Exclude ['A', 'E', 'L', 'P'], WordCluePattern.Letter 'P',
        WordCluePattern.Exclude ['A', 'E', 'L'], WordCluePattern.Exclude ['A', 'E', 'L']] w
      && ([⟨'P', 2, false⟩] : List WordClueLetter).all (letterSat w))
    = (decide (w[2]? = some 'P') && !(decide (w[1]? = some 'P'))
        && decide (2 ≤ w.count 'P') && !(w.contains 'A') && !(w.contains 'L')
        && !(w.contains 'E')) := by
  rcases w with _ | ⟨a, w⟩
  · simp at hw
  rcases w with _ | ⟨b, w⟩
  · simp at hw
  rcases w with _ | ⟨c, w⟩
  · simp at hw
  rcases w with _ | ⟨d, w⟩
  · simp at hw
  rcases w with _ | ⟨e, w⟩
  · simp at hw
  have hnil : w = [] := by
    simp at hw
    exact hw
  subst hnil
  rw [Bool.eq_iff_iff, patternIsMatch_of_len_eq (by rfl)]
  have hsat : ([⟨'P', 2, false⟩] : List WordClueLetter).all (letterSat [a, b, c, d, e])
      = repeatMatchAtLeast 'P' 2 [a, b, c, d, e] := by
    rw [List.all_cons, List.all_nil, Bool.and_true]
    rfl
  rw [hsat]
  simp only [seqMatchAt, atomSat, Bool.and_eq_true, Bool.and_true, repeatMatchAtLeast_iff,
    Bool.not_eq_true', beq_iff_eq, decide_eq_true_eq, List.getElem?_cons_succ,
    List.getElem?_cons_zero, Option.some.injEq, contains_eq_false_iff, List.mem_cons,
    List.not_mem_nil, or_false, not_or, decide_eq_false_iff_not]
  constructor
  · rintro ⟨⟨⟨ha1, ha2, ha3⟩, ⟨hb1, hb2, hb3, hb4⟩, hc, ⟨hd1, hd2, hd3⟩, he1, he2, he3⟩, hcnt⟩
    subst hc
    exact ⟨⟨⟨⟨⟨rfl, hb4⟩, hcnt⟩,
        fun h => ha1 h.symm, fun h => hb1 h.symm, (by decide : ¬('A' : Char) = 'P'),
        fun h => hd1 h.symm, fun h => he1 h.symm⟩,
      fun h => ha3 h.symm, fun h => hb3 h.symm, (by decide : ¬('L' : Char) = 'P'),
      fun h => hd3 h.symm, fun h => he3 h.symm⟩,
      fun h => ha2 h.symm, fun h => hb2 h.symm, (by decide : ¬('E' : Char) = 'P'),
      fun h => hd2 h.symm, fun h => he2 h.symm⟩
  · rintro ⟨⟨⟨⟨⟨hc, hbP⟩, hcnt⟩, hA1, hA2, hA3, hA4, hA5⟩,
      hL1, hL2, hL3, hL4, hL5⟩, hE1, hE2, hE3, hE4, hE5⟩
    subst hc
    exact ⟨⟨⟨fun h => hA1 h.symm, fun h => hE1 h.symm, fun h => hL1 h.symm⟩,
      ⟨fun h => hA2 h.symm, fun h => hE2 h.symm, fun h => hL2 h.symm, hbP⟩, rfl,
      ⟨fun h => hA4 h.symm, fun h => hE4 h.symm, fun h => hL4 h.symm⟩,
      fun h => hA5 h.symm, fun h => hE5 h.symm, fun h => hL5 h.symm⟩, hcnt⟩

/-- **C2** (counterexample): the clue extracted from `A0P1P2L0E0` has
`[{P, 2, false}]` as its whole letters map (no `A`, `L` or `E` entries, and
no `{P, 2}` with "at least one P" semantics), and the word `BOPOB` — which
satisfies everything the claim's filter description asks for (`P` at
position 3, none at position 2, at least one `P`, no `A`/`L`/`E`) — is
rejected by `filter`, because the actual constraint requires two `P`s. -/
theorem token_scenario_counterexample :
    (extract_clue [⟨'A', LetterAnswerType.NotInWord⟩, ⟨'P', LetterAnswerType.Incorrect⟩,
      ⟨'P', LetterAnswerType.Correct⟩, ⟨'L', LetterAnswerType.NotInWord⟩,
      ⟨'E', LetterAnswerType.NotInWord⟩]).letters = [⟨'P', 2, false⟩] ∧
    filterWords (extract_clue [⟨'A', LetterAnswerType.NotInWord⟩,
      ⟨'P', LetterAnswerType.Incorrect⟩, ⟨'P', LetterAnswerType.Correct⟩,
      ⟨'L', LetterAnswerType.NotInWord⟩, ⟨'E', LetterAnswerType.NotInWord⟩])
      [['B', 'O', 'P', 'O', 'B']] = [] := by
  refine ⟨by decide, by decide⟩

/-- **C2** (amended): the guess token `A0P1P2L0E0` decodes to the expected
verdicts; its clue has pattern `[Excl{A,E,L}, Excl{A,E,L,P}, Fixed P,
Excl{A,E,L}, Excl{A,E,L}]` and letters map `{P: {minCount 2, exact false}}`;
and filtering any length-5 bucket returns exactly the words with `P` at
position 3, no `P` at position 2, at least **two** `P`s overall, and no
occurrence of `A`, `L` or `E` anywhere. -/
theorem token_scenario_amended :
    extract_answer ("A0P1P2L0E0".toList) = .ok
      [⟨'A', LetterAnswerType.NotInWord⟩, ⟨'P', LetterAnswerType.Incorrect⟩,
        ⟨'P', LetterAnswerType.Correct⟩, ⟨'L', LetterAnswerType.NotInWord⟩,
        ⟨'E', LetterAnswerType.NotInWord⟩] ∧
    extract_clue [⟨'A', LetterAnswerType.NotInWord⟩, ⟨'P', LetterAnswerType.Incorrect⟩,
        ⟨'P', LetterAnswerType.Correct⟩, ⟨'L', LetterAnswerType.NotInWord⟩,
        ⟨'E', LetterAnswerType.NotInWord⟩]
      = ⟨[WordCluePattern.Exclude ['A', 'E', 'L'], WordCluePattern.Exclude ['A', 'E', 'L', 'P'],
          WordCluePattern.Letter 'P', WordCluePattern.Exclude ['A', 'E', 'L'],
          WordCluePattern.Exclude ['A', 'E', 'L']], [⟨'P', 2, false⟩]⟩ ∧
    ∀ ws : List (List Char), (∀ w ∈ ws, w.length = 5) →
      filterWords (extract_clue [⟨'A', LetterAnswerType.NotInWord⟩,
          ⟨'P', LetterAnswerType.Incorrect⟩, ⟨'P', LetterAnswerType.Correct⟩,
          ⟨'L', LetterAnswerType.NotInWord⟩, ⟨'E', LetterAnswerType.NotInWord⟩]) ws
        = ws.filter (fun w => decide (w[2]? = some 'P') && !(decide (w[1]? = some 'P'))
            && decide (2 ≤ w.count 'P') && !(w.contains 'A') && !(w.contains 'L')
            && !(w.contains 'E')) := by
  refine ⟨rfl, by decide, ?_⟩
  intro ws hws
  have hclue : extract_clue [⟨'A', LetterAnswerType.NotInWord⟩,
      ⟨'P', LetterAnswerType.Incorrect⟩, ⟨'P', LetterAnswerType.Correct⟩,
      ⟨'L', LetterAnswerType.NotInWord⟩, ⟨'E', LetterAnswerType.NotInWord⟩]
      = ⟨[WordCluePattern.Exclude ['A', 'E', 'L'], WordCluePattern.Exclude ['A', 'E', 'L', 'P'],
          WordCluePattern.Letter 'P', WordCluePattern.Exclude ['A', 'E', 'L'],
          WordCluePattern.Exclude ['A', 'E', 'L']], [⟨'P', 2, false⟩]⟩ := by decide
  rw [hclue, filterWords]
  exact List.filter_congr (fun w hw => applePointwise w (hws w hw))

/-- Witness for `token_scenario_amended`: the length-5 word `BOPOP` (two
`P`s, correctly placed, no `A`/`L`/`E`) passes the filter. -/
theorem token_scenario_amended_witness :
    filterWords (extract_clue [⟨'A', LetterAnswerType.NotInWord⟩,
      ⟨'P', LetterAnswerType.Incorrect⟩, ⟨'P', LetterAnswerType.Correct⟩,
      ⟨'L', LetterAnswerType.NotInWord⟩, ⟨'E', LetterAnswerType.NotInWord⟩])
      [['B', 'O', 'P', 'O', 'P']] = [['B', 'O', 'P', 'O', 'P']] := by
  have h := token_scenario_amended.2.2 [['B', 'O', 'P', 'O', 'P']] (by decide)
  rw [h]
  decide

/-! ## Ranking lemmas (C3)

The ranking pipeline sorts the scored words ascending with a stable sort and
reverses; the lemmas below show the result is exactly the set of maximal-score
words in reverse input order. -/

theorem filter_orderedInsert (k : Nat) (x : List Char × Nat) :
    ∀ l : List (List Char × Nat),
      (l.orderedInsert (fun a b => a.2 ≤ b.2) x).filter (fun y => y.2 == k) =
        if x.2 = k then x :: l.filter (fun y => y.2 == k)
        else l.filter (fun y => y.2 == k)
  | [] => by
    rw [List.orderedInsert, List.filter_cons, List.filter_nil]
    by_cases h : x.2 = k
    · rw [if_pos (by simpa using h), if_pos h]
    · rw [if_neg (by simpa using h), if_neg h]
  | y :: ys => by
    rw [List.orderedInsert]
    by_cases hr : x.2 ≤ y.2
    · rw [if_pos hr]
      by_cases h : x.2 = k <;> by_cases hy : y.2 = k <;>
        simp [List.filter_cons, h, hy]
    · rw [if_neg hr]
      have hlt : y.2 < x.2 := Nat.lt_of_not_le hr
      by_cases h : x.2 = k
      · have hy : ¬ y.2 = k := by omega
        simp [List.filter_cons, filter_orderedInsert k x ys, h, hy]
      · by_cases hy : y.2 = k <;>
          simp [List.filter_cons, filter_orderedInsert k x ys, h, hy]

theorem filter_insertionSort (k : Nat) :
    ∀ l : List (List Char × Nat),
      (List.insertionSort (fun a b => a.2 ≤ b.2) l).filter (fun y => y.2 == k) =
        l.filter (fun y => y.2 == k)
  | [] => rfl
  | x :: xs => by
    rw [List.insertionSort, filter_orderedInsert k x, filter_insertionSort k xs,
      List.filter_cons]
    by_cases h : x.2 = k
    · rw [if_pos h, if_pos (by simpa using h)]
    · rw [if_neg h, if_neg (by simpa using h)]

theorem takeWhile_eq_filter_of_desc (k : Nat) :
    ∀ xs : List (List Char × Nat), xs.Pairwise (fun a b => b.2 ≤ a.2) →
      (∀ z ∈ xs, z.2 ≤ k) →
      xs.takeWhile (fun y => y.2 == k) = xs.filter (fun y => y.2 == k)
  | [], _, _ => rfl
  | y :: ys, hp, hb => by
    rcases List.pairwise_cons.1 hp with ⟨hy, hp'⟩
    rw [List.takeWhile_cons, List.filter_cons]
    by_cases h : y.2 = k
    · rw [if_pos (by simpa using h), if_pos (by simpa using h)]
      rw [takeWhile_eq_filter_of_desc k ys hp'
        (fun z hz => Nat.le_trans (hy z hz) (Nat.le_of_eq h))]
    · rw [if_neg (by simpa using h), if_neg (by simpa using h)]
      have hylt : y.2 < k :=
        Nat.lt_of_le_of_ne (hb y (List.mem_cons_self y ys)) h
      symm
      rw [List.filter_eq_nil_iff]
      intro z hz
      have : z.2 < k := Nat.lt_of_le_of_lt (hy z hz) hylt
      simp
      omega

theorem le_foldr_max : ∀ (l : List Nat) (a : Nat), a ∈ l → a ≤ l.foldr Nat.max 0
  | [], a, h => absurd h (List.not_mem_nil a)
  | b :: l, a, h => by
    rw [List.foldr_cons]
    rcases List.mem_cons.1 h with rfl | h'
    · exact Nat.le_max_left _ _
    · exact Nat.le_trans (le_foldr_max l a h') (Nat.le_max_right _ _)

theorem foldr_max_mem : ∀ l : List Nat, l ≠ [] → l.foldr Nat.max 0 ∈ l
  | [], h => absurd rfl h
  | b :: l, _ => by
    rw [List.foldr_cons]
    rcases l with _ | ⟨c, l'⟩
    · simp
    · have hmem := foldr_max_mem (c :: l') (by simp)
      rcases Nat.le_total ((c :: l').foldr Nat.max 0) b with hle | hle
      · have hm : b.max ((c :: l').foldr Nat.max 0) = b := Nat.max_eq_left hle
        rw [hm]
        exact List.mem_cons_self _ _
      · have hm : b.max ((c :: l').foldr Nat.max 0) = (c :: l').foldr Nat.max 0 :=
          Nat.max_eq_right hle
        rw [hm]
        exact List.mem_cons.2 (Or.inr hmem)

/-- The ranking pipeline returns exactly the maximal-score words, in reverse
input order. -/
theorem rankWords_eq (f : List Char → Nat) (ws : List (List Char)) (hne : ws ≠ []) :
    rankWords f ws = (ws.filter (fun w => f w == maxScore f ws)).reverse := by
  rcases hrev : (List.insertionSort (fun x y => x.2 ≤ y.2)
      (ws.map (fun a => (a, f a)))).reverse with _ | ⟨x, xs⟩
  · exfalso
    have h1 : (List.insertionSort (fun x y => x.2 ≤ y.2)
        (ws.map (fun a => (a, f a)))).reverse.length = 0 := by
      rw [hrev]
      rfl
    rw [List.length_reverse, List.length_insertionSort, List.length_map] at h1
    exact hne (List.length_eq_zero.1 h1)
  · have hsorted : (List.insertionSort (fun x y => x.2 ≤ y.2)
        (ws.map (fun a => (a, f a)))).Pairwise (fun a b => a.2 ≤ b.2) :=
      List.sorted_insertionSort _ _
    have hdesc : (x :: xs).Pairwise (fun a b : List Char × Nat => b.2 ≤ a.2) := by
      rw [← hrev]
      exact List.pairwise_reverse.2 hsorted
    have hxmem : x ∈ ws.map (fun a => (a, f a)) := by
      have hx0 : x ∈ (List.insertionSort (fun x y => x.2 ≤ y.2)
          (ws.map (fun a => (a, f a)))).reverse := by
        rw [hrev]
        exact List.mem_cons_self x xs
      rw [List.mem_reverse, List.mem_insertionSort] at hx0
      exact hx0
    have hxle : x.2 ≤ maxScore f ws := by
      rcases List.mem_map.1 hxmem with ⟨a, ha, rfl⟩
      exact le_foldr_max _ _ (List.mem_map.2 ⟨a, ha, rfl⟩)
    have hgex : maxScore f ws ≤ x.2 := by
      have hmm : maxScore f ws ∈ ws.map f :=
        foldr_max_mem _ (fun h0 => hne (List.map_eq_nil.1 h0))
      rcases List.mem_map.1 hmm with ⟨a, ha, hfa⟩
      have hmem1 : (a, f a) ∈ x :: xs := by
        rw [← hrev, List.mem_reverse, List.mem_insertionSort]
        exact List.mem_map.2 ⟨a, ha, rfl⟩
      rcases List.mem_cons.1 hmem1 with heq | hmem2
      · rw [← hfa, ← heq]
      · have hle2 := List.rel_of_pairwise_cons hdesc hmem2
        rw [← hfa]
        exact hle2
    have hxM : x.2 = maxScore f ws := Nat.le_antisymm hxle hgex
    have hgrp : xs.takeWhile (fun y => y.2 == x.2) = xs.filter (fun y => y.2 == x.2) :=
      takeWhile_eq_filter_of_desc x.2 xs (List.pairwise_cons.1 hdesc).2
        (fun z hz => List.rel_of_pairwise_cons hdesc hz)
    rw [rankWords, hrev]
    simp only [firstGroupByScore]
    rw [hgrp]
    have hfc : x :: xs.filter (fun y => y.2 == x.2)
        = (x :: xs).filter (fun y => y.2 == x.2) := by
      rw [List.filter_cons, if_pos (by simp)]
    rw [hfc, hxM, ← hrev, List.filter_reverse, filter_insertionSort, List.filter_map,
      ← List.map_reverse, List.map_map]
    have hid : ((fun p : List Char × Nat => p.1) ∘ (fun a => (a, f a)))
        = fun w : List Char => w := rfl
    have hpred : ((fun y : List Char × Nat => y.2 == maxScore f ws)
        ∘ (fun a => (a, f a))) = fun w => f w == maxScore f ws := rfl
    rw [hpred, hid, List.map_id']

/-- **C3** (counterexample): with query profile `AB` and the length-1 bucket
`[A, B]`, both words score 1, yet the overlap ranking returns `[B, A]` — the
full tie set, but in reverse input order, because the pipeline reverses the
stably ascending-sorted list. -/
theorem ranking_order_counterexample :
    score (get_frequency ['A', 'B']) (get_frequency ['A'])
        = score (get_frequency ['A', 'B']) (get_frequency ['B']) ∧
    api_most_letters_core ['A', 'B'] [['A'], ['B']] = [['B'], ['A']] ∧
    ([['B'], ['A']] : List (List Char)) ≠ [['A'], ['B']] := by
  refine ⟨by decide, by decide, by decide⟩

/-- **C3** (amended): on every non-empty bucket, both ranking operations
return exactly the set of words achieving the maximum score — never a strict
subset — in **reverse** of their input order. -/
theorem ranking_returns_reversed_tie_set :
    (∀ (pat : List Char) (ws : List (List Char)), ws ≠ [] →
      api_most_letters_core pat ws
        = (ws.filter (fun w => score (get_frequency pat) (get_frequency w)
            == maxScore (fun a => score (get_frequency pat) (get_frequency a)) ws)).reverse) ∧
    (∀ (mc : List (Char × Nat)) (ws : List (List Char)), ws ≠ [] →
      api_most_common_core mc ws
        = (ws.filter (fun w => weighted_score mc (get_frequency w)
            == maxScore (fun a => weighted_score mc (get_frequency a)) ws)).reverse) := by
  constructor
  · intro pat ws hne
    exact rankWords_eq _ ws hne
  · intro mc ws hne
    exact rankWords_eq _ ws hne

/-- Witness for `ranking_returns_reversed_tie_set` on concrete buckets. -/
theorem ranking_returns_reversed_tie_set_witness :
    api_most_letters_core ['A', 'B'] [['B'], ['A']] = [['A'], ['B']] ∧
    api_most_common_core [('A', 1)] [['A'], ['C']] = [['A']] := by
  constructor
  · have h := ranking_returns_reversed_tie_set.1 ['A', 'B'] [['B'], ['A']] (by decide)
    rw [h]
    decide
  · have h := ranking_returns_reversed_tie_set.2 [('A', 1)] [['A'], ['C']] (by decide)
    rw [h]
    decide

/-! ## Merge algebra (C6): pointwise position combine -/

theorem combinePos_LL_ok_eq {x y : Char} {r : WordCluePattern}
    (h : combinePos (.Letter x) (.Letter y) = .ok r) : x = y := by
  rw [combinePos_LL] at h
  by_cases hxy : x = y
  · exact hxy
  · rw [if_neg hxy] at h
    cases h

theorem canon_append_comm (s t : List Char) :
    canonChars (s ++ t) = canonChars (t ++ s) :=
  canonChars_eq_of_mem (fun a => by rw [List.mem_append, List.mem_append, or_comm])

theorem canon_append_assoc (s t u : List Char) :
    canonChars (canonChars (s ++ t) ++ u) = canonChars (s ++ canonChars (t ++ u)) :=
  canonChars_eq_of_mem (fun a => by
    rw [List.mem_append, List.mem_append, mem_canonChars, mem_canonChars,
      List.mem_append, List.mem_append, or_assoc])

theorem combinePos_comm {p q u v : WordCluePattern}
    (h1 : combinePos p q = .ok u) (h2 : combinePos q p = .ok v) : u = v := by
  cases p with
  | Letter x =>
    cases q with
    | Letter y =>
      have hxy : x = y := combinePos_LL_ok_eq h1
      subst hxy
      rw [combinePos_LL, if_pos rfl] at h1 h2
      rw [← Except.ok.inj h1, ← Except.ok.inj h2]
    | Exclude s =>
      rw [combinePos_LE] at h1
      rw [combinePos_EL] at h2
      rw [← Except.ok.inj h1, ← Except.ok.inj h2]
  | Exclude s =>
    cases q with
    | Letter y =>
      rw [combinePos_EL] at h1
      rw [combinePos_LE] at h2
      rw [← Except.ok.inj h1, ← Except.ok.inj h2]
    | Exclude t =>
      rw [combinePos_EE] at h1 h2
      rw [← Except.ok.inj h1, ← Except.ok.inj h2, canon_append_comm]

theorem combinePos_assoc {p q r pq qr u v : WordCluePattern}
    (hpq : combinePos p q = .ok pq) (hu : combinePos pq r = .ok u)
    (hqr : combinePos q r = .ok qr) (hv : combinePos p qr = .ok v) : u = v := by
  cases p with
  | Letter x =>
    have h1 : pq = .Letter x := combinePos_ok_left_letter hpq
    subst h1
    have h2 : u = .Letter x := combinePos_ok_left_letter hu
    have h3 : v = .Letter x := combinePos_ok_left_letter hv
    rw [h2, h3]
  | Exclude s =>
    cases q with
    | Letter y =>
      have h1 : pq = .Letter y := combinePos_ok_right_letter hpq
      subst h1
      have h2 : qr = .Letter y := combinePos_ok_left_letter hqr
      subst h2
      have h3 : u = .Letter y := combinePos_ok_left_letter hu
      have h4 : v = .Letter y := combinePos_ok_right_letter hv
      rw [h3, h4]
    | Exclude t =>
      rw [combinePos_EE] at hpq
      have h1 : pq = .Exclude (canonChars (s ++ t)) := (Except.ok.inj hpq).symm
      subst h1
      cases r with
      | Letter z =>
        have h2 : u = .Letter z := combinePos_ok_right_letter hu
        have h3 : qr = .Letter z := combinePos_ok_right_letter hqr
        subst h3
        have h4 : v = .Letter z := combinePos_ok_right_letter hv
        rw [h2, h4]
      | Exclude w =>
        rw [combinePos_EE] at hu hqr
        have h3 : qr = .Exclude (canonChars (t ++ w)) := (Except.ok.inj hqr).symm
        subst h3
        rw [combinePos_EE] at hv
        rw [← Except.ok.inj hu, ← Except.ok.inj hv, canon_append_assoc]

theorem combinePos_swap {z x y zx zy u v : WordCluePattern}
    (h1 : combinePos z x = .ok zx) (h2 : combinePos zx y = .ok u)
    (h3 : combinePos z y = .ok zy) (h4 : combinePos zy x = .ok v) : u = v := by
  cases z with
  | Letter a =>
    have hzx : zx = .Letter a := combinePos_ok_left_letter h1
    subst hzx
    have hzy : zy = .Letter a := combinePos_ok_left_letter h3
    subst hzy
    have hu : u = .Letter a := combinePos_ok_left_letter h2
    have hv : v = .Letter a := combinePos_ok_left_letter h4
    rw [hu, hv]
  | Exclude s =>
    cases x with
    | Letter b =>
      have hzx : zx = .Letter b := combinePos_ok_right_letter h1
      subst hzx
      cases y with
      | Letter c' =>
        have hbc : b = c' := combinePos_LL_ok_eq h2
        subst hbc
        have hu : u = .Letter b := combinePos_ok_left_letter h2
        have hzy : zy = .Letter b := combinePos_ok_right_letter h3
        subst hzy
        have hv : v = .Letter b := combinePos_ok_left_letter h4
        rw [hu, hv]
      | Exclude t =>
        have hu : u = .Letter b := combinePos_ok_left_letter h2
        rw [combinePos_EE] at h3
        have hzy : zy = .Exclude (canonChars (s ++ t)) := (Except.ok.inj h3).symm
        subst hzy
        have hv : v = .Letter b := combinePos_ok_right_letter h4
        rw [hu, hv]
    | Exclude t =>
      rw [combinePos_EE] at h1
      have hzx : zx = .Exclude (canonChars (s ++ t)) := (Except.ok.inj h1).symm
      subst hzx
      cases y with
      | Letter c' =>
        have hu : u = .Letter c' := combinePos_ok_right_letter h2
        have hzy : zy = .Letter c' := combinePos_ok_right_letter h3
        subst hzy
        have hv : v = .Letter c' := combinePos_ok_left_letter h4
        rw [hu, hv]
      | Exclude w =>
        rw [combinePos_EE] at h2
        rw [combinePos_EE] at h3
        have hzy : zy = .Exclude (canonChars (s ++ w)) := (Except.ok.inj h3).symm
        subst hzy
        rw [combinePos_EE] at h4
        rw [← Except.ok.inj h2, ← Except.ok.inj h4]
        refine congrArg WordCluePattern.Exclude ?_
        refine canonChars_eq_of_mem (fun a => ?_)
        rw [List.mem_append, List.mem_append, mem_canonChars, mem_canonChars,
          List.mem_append, List.mem_append]
        tauto

/-! ## Merge algebra (C6): clue-level equivalences -/

theorem clueEquiv_refl (a : WordClue) : ClueEquiv a a := ⟨rfl, fun _ => rfl⟩

theorem clueEquiv_trans {a b c : WordClue} (h1 : ClueEquiv a b) (h2 : ClueEquiv b c) :
    ClueEquiv a c := ⟨h1.1.trans h2.1, fun c' => (h1.2 c').trans (h2.2 c')⟩

theorem combineOpt_comm_letter (c : Char) {x y : Option WordClueLetter}
    (hx : ∀ w, x = some w → w.letter = c) (hy : ∀ w, y = some w → w.letter = c) :
    combineOpt x y = combineOpt y x := by
  cases x with
  | none =>
    cases y with
    | none => rfl
    | some w => rfl
  | some w =>
    cases y with
    | none => rfl
    | some v =>
      have hwl := hx w rfl
      have hvl := hy v rfl
      simp [combineOpt, combineEntry, hwl, hvl, Nat.max_comm, Bool.or_comm]

theorem combineOpt_assoc (x y z : Option WordClueLetter) :
    combineOpt (combineOpt x y) z = combineOpt x (combineOpt y z) := by
  cases x <;> cases y <;> cases z <;>
    simp [combineOpt, combineEntry, Nat.max_assoc, Bool.or_assoc]

theorem merge_wf {a b m : WordClue} (h : merge a b = .ok m)
    (hwa : LettersWf a.letters) : LettersWf m.letters := by
  rw [(merge_ok_spec h).2.2]
  exact lettersWf_foldl_merge_letter_clue _ _ hwa

theorem findLetter_merge {a b m : WordClue} (h : merge a b = .ok m)
    (hwb : LettersWf b.letters) (c : Char) :
    findLetter c m.letters
      = combineOpt (findLetter c a.letters) (findLetter c b.letters) := by
  rw [(merge_ok_spec h).2.2]
  exact findLetter_foldl_merge_letter_clue c b.letters a.letters hwb

theorem merge_comm_equiv {a b m₁ m₂ : WordClue} (hwa : LettersWf a.letters)
    (hwb : LettersWf b.letters) (h1 : merge a b = .ok m₁) (h2 : merge b a = .ok m₂) :
    ClueEquiv m₁ m₂ := by
  constructor
  · refine List.ext_getElem ?_ ?_
    · rw [(merge_ok_len h1).1, (merge_ok_len h2).2]
    · intro i hi1 hi2
      rcases merge_ok_get h1 i hi1 with ⟨ha1, hb1, hc1⟩
      rcases merge_ok_get h2 i hi2 with ⟨hb2, ha2, hc2⟩
      exact combinePos_comm hc1 hc2
  · intro c
    rw [findLetter_merge h1 hwb c, findLetter_merge h2 hwa c]
    exact combineOpt_comm_letter c (fun w hw => (findLetter_some hw).1)
      (fun w hw => (findLetter_some hw).1)

theorem merge_assoc_equiv {a b c ab bc m₁ m₂ : WordClue}
    (hwb : LettersWf b.letters) (hwc : LettersWf c.letters)
    (hab : merge a b = .ok ab) (h1 : merge ab c = .ok m₁)
    (hbc : merge b c = .ok bc) (h2 : merge a bc = .ok m₂) :
    ClueEquiv m₁ m₂ := by
  constructor
  · refine List.ext_getElem ?_ ?_
    · rw [(merge_ok_len h1).1, (merge_ok_len hab).1, (merge_ok_len h2).1]
    · intro i hi1 hi2
      rcases merge_ok_get h1 i hi1 with ⟨hiab, hic, hc1⟩
      rcases merge_ok_get hab i hiab with ⟨hia, hib, hcab⟩
      rcases merge_ok_get h2 i hi2 with ⟨hia2, hibc, hc2⟩
      rcases merge_ok_get hbc i hibc with ⟨hib2, hic2, hcbc⟩
      exact combinePos_assoc hcab hc1 hcbc hc2
  · intro c₀
    have hwbc : LettersWf bc.letters := merge_wf hbc hwb
    rw [findLetter_merge h1 hwc c₀, findLetter_merge hab hwb c₀,
      findLetter_merge h2 hwbc c₀, findLetter_merge hbc hwc c₀]
    exact combineOpt_assoc _ _ _

/-! ## Merge algebra (C6): folds over permutations -/

theorem foldMergeClues_cons_ok {z c r : WordClue} {cs : List WordClue}
    (h : foldMergeClues z (c :: cs) = .ok r) :
    ∃ m, merge z c = .ok m ∧ foldMergeClues m cs = .ok r := by
  rw [foldMergeClues] at h
  rcases hm : merge z c with e | m
  · rw [hm] at h
    cases h
  · rw [hm] at h
    exact ⟨m, rfl, h⟩

theorem foldMergeClues_ok_of_pattern_eq :
    ∀ (l : List WordClue) (z₁ z₂ r₁ : WordClue), z₁.pattern = z₂.pattern →
      foldMergeClues z₁ l = .ok r₁ →
      ∃ r₂, foldMergeClues z₂ l = .ok r₂ ∧ r₁.pattern = r₂.pattern
  | [], z₁, z₂, r₁, hp, h => by
    rw [foldMergeClues] at h
    cases h
    exact ⟨z₂, rfl, hp⟩
  | c :: cs, z₁, z₂, r₁, hp, h => by
    rcases foldMergeClues_cons_ok h with ⟨m₁, hm₁, hrest⟩
    rcases merge_ok_spec hm₁ with ⟨hlen, hzc, _⟩
    have hm₂ : merge z₂ c
        = .ok ⟨m₁.pattern, c.letters.foldl merge_letter_clue z₂.letters⟩ := by
      refine merge_ok_of ?_ ?_
      · rw [← hp]
        exact hlen
      · rw [← hp]
        exact hzc
    rcases foldMergeClues_ok_of_pattern_eq cs m₁
        ⟨m₁.pattern, c.letters.foldl merge_letter_clue z₂.letters⟩ r₁ rfl hrest
      with ⟨r₂, hr₂, hpat⟩
    refine ⟨r₂, ?_, hpat⟩
    rw [foldMergeClues, hm₂]
    exact hr₂

theorem merge_swap_ok {z x y zx m : WordClue}
    (h1 : merge z x = .ok zx) (h2 : merge zx y = .ok m) :
    ∃ zy m', merge z y = .ok zy ∧ merge zy x = .ok m' := by
  rcases merge_ok_spec h1 with ⟨hlen1, hzc1, _⟩
  rcases merge_ok_spec h2 with ⟨hlen2, hzc2, _⟩
  have hzxlen := merge_ok_len h1
  have hzy_len : z.pattern.length = y.pattern.length := by
    rw [← hzxlen.1]
    exact hlen2
  have hpw : ∀ i, (ha : i < z.pattern.length) → (hb : i < y.pattern.length) →
      ∃ r', combinePos z.pattern[i] y.pattern[i] = .ok r' := by
    intro i ha hb
    refine combinePos_ok_of_no_conflict ?_
    intro w b hw hb'
    by_contra hwb
    have hizx : i < zx.pattern.length := by
      rw [hzxlen.1]
      exact ha
    rcases merge_ok_get h1 i hizx with ⟨hia, hib, hcomb1⟩
    rw [hw] at hcomb1
    have hzxi : zx.pattern[i] = .Letter w := combinePos_ok_left_letter hcomb1
    have him : i < m.pattern.length := by
      rw [(merge_ok_len h2).1]
      exact hizx
    rcases merge_ok_get h2 i him with ⟨hia2, hib2, hcomb2⟩
    rw [hzxi, hb'] at hcomb2
    exact hwb (combinePos_LL_ok_eq hcomb2)
  rcases @zipCombine_ok_of_pointwise z.pattern y.pattern
      (fun i ha hb => hpw i ha hb) with ⟨ps, hps⟩
  have hzy : merge z y = .ok ⟨ps, y.letters.foldl merge_letter_clue z.letters⟩ :=
    merge_ok_of hzy_len hps
  have hzylen := merge_ok_len hzy
  have hzyx_len : (⟨ps, y.letters.foldl merge_letter_clue z.letters⟩ : WordClue).pattern.length
      = x.pattern.length := by
    rw [hzylen.1]
    exact hlen1
  have hpw2 : ∀ i,
      (ha : i < (⟨ps, y.letters.foldl merge_letter_clue z.letters⟩
        : WordClue).pattern.length) →
      (hb : i < x.pattern.length) →
      ∃ r', combinePos ((⟨ps, y.letters.foldl merge_letter_clue z.letters⟩
        : WordClue).pattern[i]) (x.pattern[i]) = .ok r' := by
    intro i ha hb
    refine combinePos_ok_of_no_conflict ?_
    intro w b hw hb'
    by_contra hwb
    rcases merge_ok_get hzy i ha with ⟨hiz, hiy, hcomb⟩
    rw [hw] at hcomb
    rcases combinePos_ok_letter_src hcomb with hz | hy'
    · have hizx : i < zx.pattern.length := by
        rw [hzxlen.1]
        exact hiz
      rcases merge_ok_get h1 i hizx with ⟨_, _, hcomb1⟩
      rw [hz, hb'] at hcomb1
      exact hwb (combinePos_LL_ok_eq hcomb1)
    · have hizx : i < zx.pattern.length := by
        rw [hzxlen.1]
        exact hiz
      rcases merge_ok_get h1 i hizx with ⟨_, hix, hcomb1⟩
      rw [hb'] at hcomb1
      have hzxi : zx.pattern[i] = .Letter b := combinePos_ok_right_letter hcomb1
      have him : i < m.pattern.length := by
        rw [(merge_ok_len h2).1]
        exact hizx
      rcases merge_ok_get h2 i him with ⟨_, _, hcomb2⟩
      rw [hzxi, hy'] at hcomb2
      exact hwb (combinePos_LL_ok_eq hcomb2).symm
  rcases @zipCombine_ok_of_pointwise
      ((⟨ps, y.letters.foldl merge_letter_clue z.letters⟩ : WordClue).pattern)
      x.pattern (fun i ha hb => hpw2 i ha hb) with ⟨ps2, hps2⟩
  exact ⟨_, _, hzy, merge_ok_of hzyx_len hps2⟩

theorem merge_swap_pattern {z x y zx zy m m' : WordClue}
    (h1 : merge z x = .ok zx) (h2 : merge zx y = .ok m)
    (h3 : merge z y = .ok zy) (h4 : merge zy x = .ok m') :
    m.pattern = m'.pattern := by
  refine List.ext_getElem ?_ ?_
  · rw [(merge_ok_len h2).1, (merge_ok_len h1).1, (merge_ok_len h4).1,
      (merge_ok_len h3).1]
  · intro i hi1 hi2
    rcases merge_ok_get h2 i hi1 with ⟨hizx, hiy, hc2⟩
    rcases merge_ok_get h1 i hizx with ⟨hiz, hix, hc1⟩
    rcases merge_ok_get h4 i hi2 with ⟨hizy, hix2, hc4⟩
    rcases merge_ok_get h3 i hizy with ⟨hiz2, hiy2, hc3⟩
    exact combinePos_swap hc1 hc2 hc3 hc4

theorem merge_swap_equiv {z x y zx zy m m' : WordClue}
    (hwx : LettersWf x.letters) (hwy : LettersWf y.letters)
    (h1 : merge z x = .ok zx) (h2 : merge zx y = .ok m)
    (h3 : merge z y = .ok zy) (h4 : merge zy x = .ok m') :
    ClueEquiv m m' := by
  constructor
  · exact merge_swap_pattern h1 h2 h3 h4
  · intro c
    rw [findLetter_merge h2 hwy c, findLetter_merge h1 hwx c,
      findLetter_merge h4 hwx c, findLetter_merge h3 hwy c]
    rw [combineOpt_assoc, combineOpt_assoc]
    refine congrArg (combineOpt (findLetter c z.letters)) ?_
    exact combineOpt_comm_letter c (fun w hw => (findLetter_some hw).1)
      (fun w hw => (findLetter_some hw).1)

theorem foldMergeClues_ok_perm {l₁ l₂ : List WordClue} (hp : l₁.Perm l₂) :
    ∀ z r₁, foldMergeClues z l₁ = .ok r₁ → ∃ r₂, foldMergeClues z l₂ = .ok r₂ := by
  induction hp with
  | nil => exact fun z r₁ h => ⟨r₁, h⟩
  | cons c p ih =>
    intro z r₁ h
    rcases foldMergeClues_cons_ok h with ⟨m, hm, hrest⟩
    rcases ih m r₁ hrest with ⟨r₂, hr₂⟩
    refine ⟨r₂, ?_⟩
    rw [foldMergeClues, hm]
    exact hr₂
  | swap x y l =>
    intro z r₁ h
    rcases foldMergeClues_cons_ok h with ⟨zy, hzy, h'⟩
    rcases foldMergeClues_cons_ok h' with ⟨m, hm, hrest⟩
    rcases merge_swap_ok hzy hm with ⟨zx, m', hzx, hm'⟩
    rcases foldMergeClues_ok_of_pattern_eq l m m' r₁
        (merge_swap_pattern hzy hm hzx hm') hrest with ⟨r₂, hr₂, _⟩
    refine ⟨r₂, ?_⟩
    rw [foldMergeClues, hzx]
    show foldMergeClues zx (y :: l) = .ok r₂
    rw [foldMergeClues, hm']
    exact hr₂
  | trans p₁ p₂ ih₁ ih₂ =>
    intro z r₁ h
    rcases ih₁ z r₁ h with ⟨rmid, hmid⟩
    exact ih₂ z rmid hmid

theorem foldMergeClues_congr :
    ∀ (l : List WordClue) (z₁ z₂ r₁ r₂ : WordClue), ClueEquiv z₁ z₂ →
      (∀ u ∈ l, LettersWf u.letters) →
      foldMergeClues z₁ l = .ok r₁ → foldMergeClues z₂ l = .ok r₂ → ClueEquiv r₁ r₂
  | [], z₁, z₂, r₁, r₂, he, _, h1, h2 => by
    rw [foldMergeClues] at h1 h2
    cases h1
    cases h2
    exact he
  | c :: cs, z₁, z₂, r₁, r₂, he, hw, h1, h2 => by
    rcases foldMergeClues_cons_ok h1 with ⟨m₁, hm₁, hrest₁⟩
    rcases foldMergeClues_cons_ok h2 with ⟨m₂, hm₂, hrest₂⟩
    have hwc : LettersWf c.letters := hw c (List.mem_cons_self c cs)
    have hme : ClueEquiv m₁ m₂ := by
      constructor
      · rcases merge_ok_spec hm₁ with ⟨hlen1, hzc1, _⟩
        rcases merge_ok_spec hm₂ with ⟨hlen2, hzc2, _⟩
        rw [he.1] at hzc1
        rw [hzc2] at hzc1
        exact (Except.ok.inj hzc1).symm
      · intro c₀
        rw [findLetter_merge hm₁ hwc c₀, findLetter_merge hm₂ hwc c₀, he.2 c₀]
    exact foldMergeClues_congr cs m₁ m₂ r₁ r₂ hme
      (fun u hu => hw u (List.mem_cons.2 (Or.inr hu))) hrest₁ hrest₂

theorem foldMergeClues_perm_equiv {l₁ l₂ : List WordClue} (hp : l₁.Perm l₂) :
    ∀ z r₁ r₂, LettersWf z.letters → (∀ u ∈ l₁, LettersWf u.letters) →
      foldMergeClues z l₁ = .ok r₁ → foldMergeClues z l₂ = .ok r₂ →
      ClueEquiv r₁ r₂ := by
  induction hp with
  | nil =>
    intro z r₁ r₂ _ _ h1 h2
    rw [foldMergeClues] at h1 h2
    cases h1
    cases h2
    exact clueEquiv_refl _
  | cons c p ih =>
    intro z r₁ r₂ hwz hw h1 h2
    rcases foldMergeClues_cons_ok h1 with ⟨m, hm, hrest₁⟩
    rcases foldMergeClues_cons_ok h2 with ⟨m', hm', hrest₂⟩
    rw [hm] at hm'
    have hmm := Except.ok.inj hm'
    subst hmm
    exact ih m r₁ r₂ (merge_wf hm hwz)
      (fun u hu => hw u (List.mem_cons.2 (Or.inr hu))) hrest₁ hrest₂
  | swap x y l =>
    intro z r₁ r₂ hwz hw h1 h2
    rcases foldMergeClues_cons_ok h1 with ⟨zy, hzy, h1'⟩
    rcases foldMergeClues_cons_ok h1' with ⟨m, hm, hrest₁⟩
    rcases foldMergeClues_cons_ok h2 with ⟨zx, hzx, h2'⟩
    rcases foldMergeClues_cons_ok h2' with ⟨m', hm', hrest₂⟩
    have hwx : LettersWf x.letters :=
      hw x (List.mem_cons.2 (Or.inr (List.mem_cons_self x l)))
    have hwy : LettersWf y.letters := hw y (List.mem_cons_self y (x :: l))
    have hme : ClueEquiv m m' := merge_swap_equiv hwy hwx hzy hm hzx hm'
    exact foldMergeClues_congr l m m' r₁ r₂ hme
      (fun u hu => hw u (List.mem_cons.2 (Or.inr (List.mem_cons.2 (Or.inr hu)))))
      hrest₁ hrest₂
  | trans p₁ p₂ ih₁ ih₂ =>
    intro z r₁ r₂ hwz hw h1 h2
    rcases foldMergeClues_ok_perm p₁ z r₁ h1 with ⟨rmid, hmid⟩
    exact clueEquiv_trans (ih₁ z r₁ rmid hwz hw h1 hmid)
      (ih₂ z rmid r₂ hwz (fun u hu => hw u (p₁.mem_iff.2 hu)) hmid h2)

/-- **C6**: on well-formed clues (one letters entry per distinct letter, as
the data model requires), `merge` is commutative and associative up to the
map semantics of the letters component (per-letter combine is count-max and
exact-or) and literal equality of patterns (Excluded positions combine by
canonicalized union), so a left-fold of `merge` over any permutation of a
list of clues produces equivalent results. -/
theorem merge_comm_assoc_fold :
    (∀ a b m₁ m₂ : WordClue, LettersWf a.letters → LettersWf b.letters →
      merge a b = .ok m₁ → merge b a = .ok m₂ → ClueEquiv m₁ m₂) ∧
    (∀ a b c ab bc m₁ m₂ : WordClue,
      LettersWf a.letters → LettersWf b.letters → LettersWf c.letters →
      merge a b = .ok ab → merge ab c = .ok m₁ →
      merge b c = .ok bc → merge a bc = .ok m₂ → ClueEquiv m₁ m₂) ∧
    (∀ (z r₁ r₂ : WordClue) (l₁ l₂ : List WordClue), l₁.Perm l₂ →
      LettersWf z.letters → (∀ u ∈ l₁, LettersWf u.letters) →
      foldMergeClues z l₁ = .ok r₁ → foldMergeClues z l₂ = .ok r₂ →
      ClueEquiv r₁ r₂) :=
  ⟨fun _ _ _ _ hwa hwb h1 h2 => merge_comm_equiv hwa hwb h1 h2,
   fun _ _ _ _ _ _ _ _ hwb hwc hab h1 hbc h2 => merge_assoc_equiv hwb hwc hab h1 hbc h2,
   fun z r₁ r₂ _ _ hp hwz hw h1 h2 => foldMergeClues_perm_equiv hp z r₁ r₂ hwz hw h1 h2⟩

/-- Witness for `merge_comm_assoc_fold`: merging the clue of `A2` with a
second clue in both orders, and folding the same two clues in both orders,
gives equivalent clues. -/
theorem merge_comm_assoc_fold_witness :
    ClueEquiv
      ⟨[WordCluePattern.Letter 'A'], [⟨'A', 1, false⟩, ⟨'B', 2, false⟩]⟩
      ⟨[WordCluePattern.Letter 'A'], [⟨'B', 2, false⟩, ⟨'A', 1, false⟩]⟩ ∧
    ClueEquiv
      ⟨[WordCluePattern.Letter 'A'], [⟨'A', 1, false⟩, ⟨'B', 2, false⟩]⟩
      ⟨[WordCluePattern.Letter 'A'], [⟨'A', 1, false⟩, ⟨'B', 2, false⟩]⟩ := by
  constructor
  · exact merge_comm_assoc_fold.1
      ⟨[WordCluePattern.Letter 'A'], [⟨'A', 1, false⟩]⟩
      ⟨[WordCluePattern.Exclude ['C']], [⟨'B', 2, false⟩]⟩
      ⟨[WordCluePattern.Letter 'A'], [⟨'A', 1, false⟩, ⟨'B', 2, false⟩]⟩
      ⟨[WordCluePattern.Letter 'A'], [⟨'B', 2, false⟩, ⟨'A', 1, false⟩]⟩
      (by unfold LettersWf; decide) (by unfold LettersWf; decide) rfl rfl
  · exact merge_comm_assoc_fold.2.2
      ⟨[WordCluePattern.Letter 'A'], [⟨'A', 1, false⟩]⟩
      ⟨[WordCluePattern.Letter 'A'], [⟨'A', 1, false⟩, ⟨'B', 2, false⟩]⟩
      ⟨[WordCluePattern.Letter 'A'], [⟨'A', 1, false⟩, ⟨'B', 2, false⟩]⟩
      [⟨[WordCluePattern.Exclude ['C']], [⟨'B', 2, false⟩]⟩,
        ⟨[WordCluePattern.Exclude ['D']], []⟩]
      [⟨[WordCluePattern.Exclude ['D']], []⟩,
        ⟨[WordCluePattern.Exclude ['C']], [⟨'B', 2, false⟩]⟩]
      (List.Perm.swap _ _ _) (by unfold LettersWf; decide)
      (by
        intro u hu
        rcases List.mem_cons.1 hu with rfl | hu'
        · unfold LettersWf
          decide
        · rcases List.mem_cons.1 hu' with rfl | hu''
          · unfold LettersWf
            decide
          · exact absurd hu'' (List.not_mem_nil u))
      rfl rfl

end WordleHelper
